import Mathlib

/-!
# Size-augmented left-leaning red-black tree

Shallow embedding of `redblack-tree/include/RedBlackTree.h`.

* `std::unique_ptr<Node>` is the type `RedBlackTree.Node T`; the constructor `null` is the
  absent pointer.
* `size_t` values are natural numbers; every arithmetic operation of the source on them is
  taken modulo `2 ^ 64` (`addSz`, `subSz`).
* Functions taking `std::unique_ptr<Node>&` return the new content of the reference.
* Where the source dereferences a pointer that a preceding test of the same function (or of its
  caller) has shown to be present, the embedding pattern-matches; the remaining branch is never
  taken by any caller.
* `Node::Delete` and `Node::DeleteMin` recurse into a child of an already restructured node, so
  they are embedded with a recursion budget; `none` means that the budget ran out or that the
  source would dereference an absent pointer. `Delete_total` shows that neither happens,
  whatever the node structure, and `DeleteFuel_of_le` that the result does not depend on the
  budget.
* The public `Insert` returns `none` where the source would enter `Node::Insert` with an absent
  root.
-/

/-- Sum of two `size_t` values. -/
def addSz (a b : Nat) : Nat := (a + b) % 2 ^ 64

/-- Difference of two `size_t` values; wraps around below zero. -/
def subSz (a b : Nat) : Nat := (a + (2 ^ 64 - b % 2 ^ 64)) % 2 ^ 64

/-- Conversion of `bool` to `size_t`. -/
def boolSz (b : Bool) : Nat := if b then 1 else 0

/-- Owning pointer to a `Node`: either absent (`null`) or a node with its five fields. -/
inductive RedBlackTree.Node (T : Type) where
  | null : RedBlackTree.Node T
  | node (Item : T) (Black : Bool) (LeftSize : Nat) (Left Right : RedBlackTree.Node T) :
      RedBlackTree.Node T
  deriving DecidableEq, Repr

/-- State of a `RedBlackTree<T>` object (the unused member `m_default` is left out). -/
structure RedBlackTree (T : Type) where
  m_root : RedBlackTree.Node T
  m_treeSize : Nat
  deriving DecidableEq, Repr

namespace RedBlackTree
namespace Node

variable {T : Type}

/-- Test `!p` on a pointer. -/
def isNull : Node T → Bool
  | null => true
  | node _ _ _ _ _ => false

/-- `IsBlack()`; on an absent pointer the callers' `!p ||` guard makes the answer `true`. -/
def IsBlack : Node T → Bool
  | null => true
  | node _ b _ _ _ => b

/-- `IsRed()`; on an absent pointer the callers' `p &&` guard makes the answer `false`. -/
def IsRed : Node T → Bool
  | null => false
  | node _ b _ _ _ => !b

/-- Field `Left`. -/
def getLeft : Node T → Node T
  | null => null
  | node _ _ _ l _ => l

/-- Field `Right`. -/
def getRight : Node T → Node T
  | null => null
  | node _ _ _ _ r => r

/-- `IsLeftBlack()`: `!Left || Left->IsBlack()`. -/
def IsLeftBlack : Node T → Bool
  | null => true
  | node _ _ _ l _ => l.isNull || l.IsBlack

/-- `IsLeftRed()`: `Left && Left->IsRed()`. -/
def IsLeftRed : Node T → Bool
  | null => false
  | node _ _ _ l _ => !l.isNull && l.IsRed

/-- `IsRightBlack()`: `!Right || Right->IsBlack()`. -/
def IsRightBlack : Node T → Bool
  | null => true
  | node _ _ _ _ r => r.isNull || r.IsBlack

/-- `IsRightRed()`: `Right && Right->IsRed()`. -/
def IsRightRed : Node T → Bool
  | null => false
  | node _ _ _ _ r => !r.isNull && r.IsRed

/-- Statement `if (p) p->Black = !p->Black;`. -/
def flipBlack : Node T → Node T
  | null => null
  | node i b s l r => node i (!b) s l r

/-- `SwitchColours()`. -/
def SwitchColours : Node T → Node T
  | null => null
  | node i b s l r => node i (!b) s (flipBlack l) (flipBlack r)

/-- `MoveRedUp()`. -/
def MoveRedUp (n : Node T) : Node T :=
  if n.IsLeftRed && n.IsRightRed then n.SwitchColours else n

/-- `RotateLeft(node)`; the source requires `node` and `node->Right` to be present. -/
def RotateLeft : Node T → Node T
  | node i b s l (node ri rb rs rl rr) =>
      node ri b (addSz rs (addSz s 1)) (node i rb s l rl) rr
  | n => n

/-- `RotateRight(node)`; the source requires `node` and `node->Left` to be present. -/
def RotateRight : Node T → Node T
  | node i b s (node li lb ls ll lr) r =>
      node li b ls ll (node i lb (subSz s (addSz ls 1)) lr r)
  | n => n

/-- `Fixup(node)`. -/
def Fixup (node : Node T) : Node T :=
  let n1 := if node.IsRightRed && node.IsLeftBlack then RotateLeft node else node
  let n2 := if n1.IsLeftRed && n1.getLeft.IsLeftRed then RotateRight n1 else n1
  MoveRedUp n2

/-- Assignment to the field `Right`. -/
def setRight : Node T → Node T → Node T
  | null, _ => null
  | node i b s l _, r => node i b s l r

/-- `MoveRedLeft(node)`. -/
def MoveRedLeft (node : Node T) : Node T :=
  let n1 := node.SwitchColours
  if !n1.getRight.isNull && n1.getRight.IsLeftRed then
    let n2 := n1.setRight (RotateRight n1.getRight)
    let n3 := RotateLeft n2
    n3.SwitchColours
  else n1

/-- `MoveRedRight(node)`. -/
def MoveRedRight (node : Node T) : Node T :=
  let n1 := node.SwitchColours
  if !n1.getLeft.isNull && n1.getLeft.IsLeftRed then
    (RotateRight n1).SwitchColours
  else n1

/-- Number of nodes of a subtree. -/
def count : Node T → Nat
  | null => 0
  | node _ _ _ l r => count l + 1 + count r

/-- In-order traversal. -/
def toList : Node T → List T
  | null => []
  | node i _ _ l r => toList l ++ i :: toList r

section Ops

variable [LinearOrder T]

/-- `Node::Insert(node, item)`: the flag and the new content of `node`. The source dereferences
`node` at once, so it is only called on a present node. -/
def Insert : Node T → T → Bool × Node T
  | null, _ => (false, null)
  | node i b s l r, item =>
    if i = item then (false, node i b s l r)
    else if item < i then
      match l with
      | null => (true, Fixup (node i b (addSz s 1) (node item false 0 null null) r))
      | node li lb ls ll lr =>
        let res := Insert (node li lb ls ll lr) item
        (res.1, Fixup (node i b (addSz s (boolSz res.1)) res.2 r))
    else
      match r with
      | null => (true, Fixup (node i b s l (node item false 0 null null)))
      | node ri rb rs rl rr =>
        let res := Insert (node ri rb rs rl rr) item
        (res.1, Fixup (node i b s l res.2))

/-- Item of the node reached by `while (rightMin->Left) rightMin = rightMin->Left.get();`. -/
def minItem : Node T → T → T
  | null, d => d
  | node i _ _ null _, _ => i
  | node _ _ _ (node li lb ls ll lr) _, d => minItem (node li lb ls ll lr) d

/-- Assignment `rightMin->Item = item` to the node reached by the same loop. -/
def setMinItem : Node T → T → Node T
  | null, _ => null
  | node _ b s null r, x => node x b s null r
  | node i b s (node li lb ls ll lr) r, x => node i b s (setMinItem (node li lb ls ll lr) x) r

/-- `Node::DeleteMin(node)` with a recursion budget; the source requires `node` to be present.
The flag is always `true`; the flag of the recursive call is ignored, as in the source. -/
def DeleteMinFuel : Nat → Node T → Option (Bool × Node T)
  | 0, _ => none
  | _ + 1, null => none
  | fuel + 1, node i b s l r =>
    let n0 : Node T := node i b s l r
    let n1 := if n0.IsLeftBlack && !l.isNull && l.IsLeftBlack then MoveRedLeft n0 else n0
    match n1 with
    | null => none
    | node _ _ _ null _ => some (true, null)
    | node i1 b1 s1 (node li lb ls ll lr) r1 =>
      match DeleteMinFuel fuel (node li lb ls ll lr) with
      | none => none
      | some res => some (true, Fixup (node i1 b1 (subSz s1 1) res.2 r1))

/-- `Node::Delete(node, item)` with a recursion budget: the flag and the new content of `node`.
`node.reset()` is the result `null`, whatever subtrees the node still owns. -/
def DeleteFuel : Nat → Node T → T → Option (Bool × Node T)
  | 0, _, _ => none
  | _ + 1, null, _ => some (false, null)
  | fuel + 1, node i b s l r, item =>
    let n0 : Node T := node i b s l r
    if item < i then
      let n1 := if !l.isNull && l.IsBlack && l.IsLeftBlack then MoveRedLeft n0 else n0
      match n1 with
      | null => none
      | node i1 b1 s1 l1 r1 =>
        match DeleteFuel fuel l1 item with
        | none => none
        | some res => some (res.1, Fixup (node i1 b1 (subSz s1 (boolSz res.1)) res.2 r1))
    else
      let n1 := if n0.IsLeftRed then RotateRight n0 else n0
      match n1 with
      | null => none
      | node i1 b1 s1 l1 r1 =>
        if i1 = item ∧ r1.isNull = true then some (true, null)
        else
          let n1 : Node T := node i1 b1 s1 l1 r1
          let n2 :=
            if n1.IsRightBlack && !r1.isNull && r1.IsLeftBlack then MoveRedRight n1 else n1
          match n2 with
          | null => none
          | node i2 b2 s2 l2 r2 =>
            if i2 = item then
              match DeleteMinFuel fuel (setMinItem r2 item) with
              | none => none
              | some res => some (res.1, Fixup (node (minItem r2 item) b2 s2 l2 res.2))
            else
              match DeleteFuel fuel r2 item with
              | none => none
              | some res => some (res.1, Fixup (node i2 b2 s2 l2 res.2))

/-- `Node::Delete(node, item)`: the recursion never goes deeper than the number of nodes. -/
def Delete (node : Node T) (item : T) : Option (Bool × Node T) :=
  DeleteFuel (count node + 1) node item

/-- `Node::Contains(node, item)`. -/
def Contains : Node T → T → Bool
  | null, _ => false
  | node i _ _ l r, item =>
    if item = i then true
    else if item < i then Contains l item
    else Contains r item

variable [Inhabited T]

/-- `Node::Find(node, item)`; `default` is the static member `s_default`. -/
def Find : Node T → T → Nat × T
  | null, _ => (2 ^ 64 - 1, default)
  | node i _ s l r, item =>
    if item = i then (s, i)
    else if item < i then Find l item
    else
      let foundPair := Find r item
      (addSz foundPair.1 s, foundPair.2)

/-- `Node::At(node, index)`; `default` is the static member `s_default`. -/
def At : Node T → Nat → T
  | null, _ => default
  | node i _ s l r, index =>
    if s = index then i
    else if index < s then At l index
    else At r (subSz index (addSz s 1))

end Ops

end Node

section Api

variable {T : Type} [LinearOrder T]

/-- Constructor `RedBlackTree()`. -/
def empty : RedBlackTree T := ⟨Node.null, 0⟩

/-- `Empty()`. -/
def Empty (t : RedBlackTree T) : Bool := t.m_treeSize == 0

/-- `Size()`. -/
def Size (t : RedBlackTree T) : Nat := t.m_treeSize

/-- `Insert(item)`: the returned flag and the new state; `none` when `Node::Insert` would be
entered with an absent root (the source dereferences it). -/
def Insert (t : RedBlackTree T) (item : T) : Option (Bool × RedBlackTree T) :=
  if t.Empty then some (true, ⟨Node.node item false 0 Node.null Node.null, 1⟩)
  else
    match t.m_root with
    | Node.null => none
    | Node.node i b s l r =>
      let res := Node.Insert (Node.node i b s l r) item
      if res.1 then some (true, ⟨res.2, addSz t.m_treeSize 1⟩)
      else some (false, ⟨res.2, t.m_treeSize⟩)

/-- `Delete(item)`: the returned flag and the new state. -/
def Delete (t : RedBlackTree T) (item : T) : Option (Bool × RedBlackTree T) :=
  match Node.Delete t.m_root item with
  | none => none
  | some res => some (res.1, ⟨res.2, subSz t.m_treeSize (boolSz res.1)⟩)

/-- `Clear()`. -/
def Clear (_t : RedBlackTree T) : RedBlackTree T := ⟨Node.null, 0⟩

/-- `Contains(item)`. -/
def Contains (t : RedBlackTree T) (item : T) : Bool := Node.Contains t.m_root item

variable [Inhabited T]

/-- `Find(item)`. -/
def Find (t : RedBlackTree T) (item : T) : Nat × T := Node.Find t.m_root item

/-- `At(index)`. -/
def At (t : RedBlackTree T) (index : Nat) : T := Node.At t.m_root index

/-- `DeleteAt(index)`: `Delete(At(index))`. The source passes the reference that `At` returns;
the item is taken by value here, which gives the same state (`DeleteMinFuel_setMinItem_indep`). -/
def DeleteAt (t : RedBlackTree T) (index : Nat) : Option (Bool × RedBlackTree T) :=
  t.Delete (t.At index)

end Api

/-! ## Properties of trees -/

namespace Node

variable {T : Type}

/-- Size augmentation: every node's `LeftSize` is the node count of its left subtree. -/
def Sized : Node T → Prop
  | null => True
  | node _ _ s l r => s = count l ∧ Sized l ∧ Sized r

/-- No node of the subtree has a red right child. -/
def NoRedRight : Node T → Prop
  | null => True
  | node _ _ _ l r => r.IsRed = false ∧ NoRedRight l ∧ NoRedRight r

/-- No red node of the subtree (its root included) has a red child. -/
def NoRedRed : Node T → Prop
  | null => True
  | node _ b _ l r => (b = false → l.IsRed = false ∧ r.IsRed = false) ∧ NoRedRed l ∧ NoRedRed r

/-- No red node other than the root has a red child. -/
def NoRedRedBelowRoot : Node T → Prop
  | null => True
  | node _ _ _ l r => NoRedRed l ∧ NoRedRed r

/-- Number of black nodes on each path from the root to an absent child, one entry per path. -/
def pathBlacks : Node T → List Nat
  | null => [0]
  | node _ b _ l r => (pathBlacks l ++ pathBlacks r).map (fun k => k + boolSz b)

/-- Every path from the root to an absent child contains the same number of black nodes. -/
def BlackBalanced (t : Node T) : Prop :=
  ∀ a ∈ pathBlacks t, ∀ b ∈ pathBlacks t, a = b

/-- The three shape and balance conditions of a left-leaning red-black tree. -/
def LLRB (t : Node T) : Prop :=
  NoRedRight t ∧ NoRedRedBelowRoot t ∧ BlackBalanced t

/-- Number of black nodes on the leftmost path. -/
def bheight : Node T → Nat
  | null => 0
  | node _ b _ l _ => bheight l + boolSz b

/-- Both subtrees of every node have the same `bheight`. -/
def invh : Node T → Prop
  | null => True
  | node _ _ _ l r => bheight l = bheight r ∧ invh l ∧ invh r

/-- Colour condition on every node: the right child is not red, and a red node has no red left
child. -/
def invc : Node T → Prop
  | null => True
  | node _ b _ l r => r.IsRed = false ∧ (b = false → l.IsRed = false) ∧ invc l ∧ invc r

/-- Colour condition below the root: the root's right child is not red and both subtrees satisfy
`invc`. -/
def invc2 : Node T → Prop
  | null => True
  | node _ _ _ l r => r.IsRed = false ∧ invc l ∧ invc r

/-- The size augmentation can be checked by computation. -/
instance decSized : (t : Node T) → Decidable (Sized t)
  | null => isTrue trivial
  | node _ _ s l r =>
    @instDecidableAnd (s = count l) (Sized l ∧ Sized r) (Nat.decEq s (count l))
      (@instDecidableAnd (Sized l) (Sized r) (decSized l) (decSized r))

/-- `NoRedRight` can be checked by computation. -/
instance decNoRedRight : (t : Node T) → Decidable (NoRedRight t)
  | null => isTrue trivial
  | node _ _ _ l r =>
    @instDecidableAnd (r.IsRed = false) (NoRedRight l ∧ NoRedRight r) inferInstance
      (@instDecidableAnd (NoRedRight l) (NoRedRight r) (decNoRedRight l) (decNoRedRight r))

/-- `NoRedRed` can be checked by computation. -/
instance decNoRedRed : (t : Node T) → Decidable (NoRedRed t)
  | null => isTrue trivial
  | node _ b _ l r =>
    @instDecidableAnd (b = false → l.IsRed = false ∧ r.IsRed = false) (NoRedRed l ∧ NoRedRed r)
      inferInstance
      (@instDecidableAnd (NoRedRed l) (NoRedRed r) (decNoRedRed l) (decNoRedRed r))

/-- `NoRedRedBelowRoot` can be checked by computation. -/
instance decNoRedRedBelowRoot : (t : Node T) → Decidable (NoRedRedBelowRoot t)
  | null => isTrue trivial
  | node _ _ _ l r => @instDecidableAnd (NoRedRed l) (NoRedRed r) (decNoRedRed l) (decNoRedRed r)

/-- `BlackBalanced` can be checked by computation. -/
instance decBlackBalanced (t : Node T) : Decidable (BlackBalanced t) :=
  inferInstanceAs (Decidable (∀ a ∈ pathBlacks t, ∀ b ∈ pathBlacks t, a = b))

/-- `LLRB` can be checked by computation. -/
instance decLLRB (t : Node T) : Decidable (LLRB t) :=
  inferInstanceAs (Decidable (NoRedRight t ∧ NoRedRedBelowRoot t ∧ BlackBalanced t))

end Node

/-- Trees that a sequence of `Insert` and `Delete` calls builds from the empty tree. A node
count of `2 ^ 64` is never reached: `size_t` has 64 bits and every node occupies memory. -/
inductive Reachable {T : Type} [LinearOrder T] : RedBlackTree T → Prop
  | empty : Reachable RedBlackTree.empty
  | insert (t : RedBlackTree T) (x : T) (r : Bool × RedBlackTree T) :
      Reachable t → Node.count t.m_root + 1 < 2 ^ 64 → t.Insert x = some r → Reachable r.2
  | delete (t : RedBlackTree T) (x : T) (r : Bool × RedBlackTree T) :
      Reachable t → t.Delete x = some r → Reachable r.2

end RedBlackTree

/-! ## Predicates used in the correctness proofs of the deletion functions -/

namespace RedBlackTree
namespace Node

variable {T : Type}

/-- What `Node::Delete` and `Node::DeleteMin` need of the subtree they are called on: it is
absent, or its root or its root's left child is red. -/
def Entry (t : Node T) : Prop := t = null ∨ t.IsRed = true ∨ t.IsLeftRed = true

/-- Result `t1` of a deletion in the inner subtree `t`: fully well coloured, of the same black
height, and with a black root if the root of `t` was black. -/
def StrongPost (t t1 : Node T) : Prop :=
  invc t1 ∧ bheight t1 = bheight t ∧ (t.IsRed = false → t1.IsRed = false)

/-- What `Node::DeleteMin` establishes. -/
def DelPost (t t1 : Node T) : Prop :=
  invc2 t1 ∧ invh t1 ∧ (invc t → Entry t → StrongPost t t1)

/-- The one entry shape with a red right child: a black node whose right child is red, met by
`Node::Delete` after `MoveRedRight` has rotated; the search then continues to the right. -/
def RedRight [LT T] (x : T) : Node T → Prop
  | null => False
  | node i b _ l r => b = true ∧ l.IsRed = false ∧ r.IsRed = true ∧ ¬ x < i ∧ invc l ∧ invc r

/-- Entry condition of `Node::Delete` for an inner subtree. -/
def Proper [LT T] (x : T) (t : Node T) : Prop := (invc t ∧ Entry t) ∨ RedRight x t

/-- What `Node::Delete` establishes. -/
def DelPostX [LT T] (x : T) (t t1 : Node T) : Prop :=
  invc2 t1 ∧ invh t1 ∧ (Proper x t → StrongPost t t1)

/-- What `Node::Delete` does to the content, the node count and the size augmentation. -/
def DelContent [LinearOrder T] (x : T) (t : Node T) (d : Bool) (t1 : Node T) : Prop :=
  toList t1 = (toList t).filter (fun y => decide (y ≠ x)) ∧ (d = true ↔ x ∈ toList t) ∧
    count t1 + boolSz d = count t ∧ (Sized t → count t < 2 ^ 64 → Sized t1)

end Node

variable {T : Type} [LinearOrder T]

/-- State invariant of the object: a sorted, well shaped, size-augmented tree whose node count
is `m_treeSize` and fits `size_t`. -/
structure WF (t : RedBlackTree T) : Prop where
  sorted : (Node.toList t.m_root).Sorted (· < ·)
  llrb : Node.LLRB t.m_root
  sized : Node.Sized t.m_root
  size_eq : t.m_treeSize = Node.count t.m_root
  bound : Node.count t.m_root < 2 ^ 64

/-- Calls `Insert` for every item of the list in turn, as the loops of `tests.cpp` do. -/
def insertList (t : RedBlackTree T) : List T → RedBlackTree T
  | [] => t
  | x :: xs =>
    match t.Insert x with
    | some r => insertList r.2 xs
    | none => t

/-- Calls `Delete` for every item of the list in turn, as the loops of `tests.cpp` do. -/
def deleteList (t : RedBlackTree T) : List T → RedBlackTree T
  | [] => t
  | x :: xs =>
    match t.Delete x with
    | some r => deleteList r.2 xs
    | none => t

/-- Node structure that is no search tree (its in-order traversal is 0, 2, 1, 3) but satisfies
the three shape and balance conditions. -/
def unorderedTree : RedBlackTree Nat :=
  ⟨Node.node 1 true 2 (Node.node 2 true 1 (Node.node 0 false 0 Node.null Node.null) Node.null) (Node.node 3 true 0 Node.null Node.null), 4⟩

namespace Node

/-- Field `LeftSize`; for an absent node the value 0 stands in. -/
def getLeftSize : Node T → Nat
  | null => 0
  | node _ _ s _ _ => s

/-- Nodes that the descent of `Node::Find` visits for `item`, from the root downwards; the
descent stops at the node holding `item` or at an absent child. -/
def searchPath : Node T → T → List (Node T)
  | null, _ => []
  | node i b s l r, item =>
    node i b s l r ::
      (if item = i then [] else if item < i then searchPath l item else searchPath r item)

/-- At this node the search for `item` continues into the right child: neither
`item == node->Item` nor `item < node->Item`. -/
def continuesRight (item : T) : Node T → Bool
  | null => false
  | node i _ _ _ _ => !decide (item = i) && !decide (item < i)

/-- This node holds `item`. -/
def holds (item : T) : Node T → Bool
  | null => false
  | node i _ _ _ _ => decide (item = i)

/-- Rank in the words of the specification: the sum of the `LeftSize` values of every node on the
search path at which the search continued into the right child, plus the `LeftSize` of the node
that holds the item; the sum is taken in the natural numbers, without wrap-around. -/
def pathRank (t : Node T) (item : T) : Nat :=
  (((searchPath t item).filter (continuesRight item)).map getLeftSize).sum +
    (((searchPath t item).filter (holds item)).map getLeftSize).sum

/-- `Fixup` in the words of the specification: first `RotateLeft` when the right child is red and
the left child is black, then `RotateRight` when the left child and the left-left grandchild are
both red, then `SwitchColours` when both children are red; an absent child counts as black. -/
def fixupSteps (n : Node T) : Node T :=
  let a := if n.getRight.IsRed = true ∧ n.getLeft.IsBlack = true then RotateLeft n else n
  let b := if a.getLeft.IsRed = true ∧ a.getLeft.getLeft.IsRed = true then RotateRight a else a
  if b.getLeft.IsRed = true ∧ b.getRight.IsRed = true then SwitchColours b else b

/-- Number of nodes on the longest path from the root of the subtree to an absent child. -/
def height : Node T → Nat
  | null => 0
  | node _ _ _ l r => max (height l) (height r) + 1

end Node

end RedBlackTree

namespace RedBlackTree
namespace Node

variable {T : Type}

/-! ### Pointer tests -/

@[simp] theorem isNull_null : (null : Node T).isNull = true := rfl
@[simp] theorem isNull_node (i : T) (b s l r) : (node i b s l r).isNull = false := rfl
@[simp] theorem IsRed_null : (null : Node T).IsRed = false := rfl
@[simp] theorem IsRed_node (i : T) (b s l r) : (node i b s l r).IsRed = !b := rfl
@[simp] theorem IsBlack_eq (t : Node T) : t.IsBlack = !t.IsRed := by
  cases t <;> simp [IsBlack]
@[simp] theorem IsLeftRed_node (i : T) (b s l r) : (node i b s l r).IsLeftRed = l.IsRed := by
  cases l <;> simp [IsLeftRed]
@[simp] theorem IsRightRed_node (i : T) (b s l r) : (node i b s l r).IsRightRed = r.IsRed := by
  cases r <;> simp [IsRightRed]
@[simp] theorem IsLeftBlack_node (i : T) (b s l r) :
    (node i b s l r).IsLeftBlack = !l.IsRed := by
  cases l <;> simp [IsLeftBlack]
@[simp] theorem IsRightBlack_node (i : T) (b s l r) :
    (node i b s l r).IsRightBlack = !r.IsRed := by
  cases r <;> simp [IsRightBlack]
@[simp] theorem getLeft_node (i : T) (b s l r) : (node i b s l r).getLeft = l := rfl
@[simp] theorem getRight_node (i : T) (b s l r) : (node i b s l r).getRight = r := rfl
@[simp] theorem getLeft_null : (null : Node T).getLeft = null := rfl
@[simp] theorem getRight_null : (null : Node T).getRight = null := rfl
@[simp] theorem IsLeftRed_null : (null : Node T).IsLeftRed = false := rfl
@[simp] theorem IsRightRed_null : (null : Node T).IsRightRed = false := rfl
@[simp] theorem IsLeftBlack_null : (null : Node T).IsLeftBlack = true := rfl
@[simp] theorem IsRightBlack_null : (null : Node T).IsRightBlack = true := rfl

theorem isNull_iff (t : Node T) : t.isNull = true ↔ t = null := by
  cases t <;> simp

theorem IsRed_ne_null {t : Node T} (h : t.IsRed = true) : t ≠ null := by
  cases t <;> simp at h ⊢

/-! ### In-order content and node count of the balancing primitives -/

@[simp] theorem toList_null : toList (null : Node T) = [] := rfl
@[simp] theorem toList_node (i : T) (b s l r) :
    toList (node i b s l r) = toList l ++ i :: toList r := rfl
@[simp] theorem count_null : count (null : Node T) = 0 := rfl
@[simp] theorem count_node (i : T) (b s l r) :
    count (node i b s l r) = count l + 1 + count r := rfl

@[simp] theorem length_toList (t : Node T) : (toList t).length = count t := by
  induction t with
  | null => rfl
  | node i b s l r ihl ihr => simp [ihl, ihr]; omega

theorem count_eq_zero {t : Node T} : count t = 0 ↔ t = null := by
  cases t <;> simp

@[simp] theorem toList_flipBlack (t : Node T) : toList (flipBlack t) = toList t := by
  cases t <;> rfl
@[simp] theorem count_flipBlack (t : Node T) : count (flipBlack t) = count t := by
  cases t <;> rfl
@[simp] theorem toList_SwitchColours (t : Node T) : toList (SwitchColours t) = toList t := by
  cases t <;> simp [SwitchColours]
@[simp] theorem count_SwitchColours (t : Node T) : count (SwitchColours t) = count t := by
  cases t <;> simp [SwitchColours]
@[simp] theorem toList_MoveRedUp (t : Node T) : toList (MoveRedUp t) = toList t := by
  unfold MoveRedUp; split <;> simp
@[simp] theorem count_MoveRedUp (t : Node T) : count (MoveRedUp t) = count t := by
  unfold MoveRedUp; split <;> simp

@[simp] theorem toList_RotateLeft (t : Node T) : toList (RotateLeft t) = toList t := by
  unfold RotateLeft; split <;> simp
@[simp] theorem count_RotateLeft (t : Node T) : count (RotateLeft t) = count t := by
  unfold RotateLeft; split
  · simp; omega
  · rfl
@[simp] theorem toList_RotateRight (t : Node T) : toList (RotateRight t) = toList t := by
  unfold RotateRight; split <;> simp
@[simp] theorem count_RotateRight (t : Node T) : count (RotateRight t) = count t := by
  unfold RotateRight; split
  · simp; omega
  · rfl

@[simp] theorem toList_Fixup (t : Node T) : toList (Fixup t) = toList t := by
  unfold Fixup; simp only []; split <;> split <;> simp
@[simp] theorem count_Fixup (t : Node T) : count (Fixup t) = count t := by
  unfold Fixup; simp only []; split <;> split <;> simp

theorem toList_setRight (t r : Node T) (h : toList r = toList t.getRight) :
    toList (setRight t r) = toList t := by
  cases t <;> simp_all [setRight]
theorem count_setRight (t r : Node T) (h : count r = count t.getRight) :
    count (setRight t r) = count t := by
  cases t <;> simp_all [setRight]

@[simp] theorem toList_MoveRedLeft (t : Node T) : toList (MoveRedLeft t) = toList t := by
  unfold MoveRedLeft; simp only []; split
  · simp [toList_setRight]
  · simp
@[simp] theorem count_MoveRedLeft (t : Node T) : count (MoveRedLeft t) = count t := by
  unfold MoveRedLeft; simp only []; split
  · simp [count_setRight]
  · simp
@[simp] theorem toList_MoveRedRight (t : Node T) : toList (MoveRedRight t) = toList t := by
  unfold MoveRedRight; simp only []; split <;> simp
@[simp] theorem count_MoveRedRight (t : Node T) : count (MoveRedRight t) = count t := by
  unfold MoveRedRight; simp only []; split <;> simp

theorem ne_null_of_count {t u : Node T} (h : count t = count u) (hu : u ≠ null) : t ≠ null := by
  intro ht; subst ht; exact hu (count_eq_zero.1 h.symm)

/-! ### Size augmentation of the balancing primitives -/

theorem addSz_of_lt {a b : Nat} (h : a + b < 2 ^ 64) : addSz a b = a + b :=
  Nat.mod_eq_of_lt h

theorem subSz_of_le {a b : Nat} (hb : b ≤ a) (ha : a < 2 ^ 64) : subSz a b = a - b := by
  unfold subSz
  have hb2 : b % 2 ^ 64 = b := Nat.mod_eq_of_lt (by omega)
  rw [hb2]
  have : a + (2 ^ 64 - b) = (a - b) + 2 ^ 64 := by omega
  rw [this, Nat.add_mod_right]
  exact Nat.mod_eq_of_lt (by omega)

@[simp] theorem Sized_null : Sized (null : Node T) = True := rfl
@[simp] theorem Sized_node (i : T) (b s l r) :
    Sized (node i b s l r) = (s = count l ∧ Sized l ∧ Sized r) := rfl

@[simp] theorem Sized_flipBlack (t : Node T) : Sized (flipBlack t) = Sized t := by
  cases t <;> rfl
@[simp] theorem Sized_SwitchColours (t : Node T) : Sized (SwitchColours t) = Sized t := by
  cases t <;> simp [SwitchColours]
@[simp] theorem Sized_MoveRedUp (t : Node T) : Sized (MoveRedUp t) = Sized t := by
  unfold MoveRedUp; split <;> simp

theorem Sized_RotateLeft {t : Node T} (h : Sized t) (hc : count t < 2 ^ 64) :
    Sized (RotateLeft t) := by
  unfold RotateLeft; split
  · simp only [Sized_node, count_node] at h hc ⊢
    obtain ⟨h1, h2, h3, h4, h5⟩ := h
    subst h1 h3
    refine ⟨?_, ⟨rfl, h2, h4⟩, h5⟩
    rw [addSz_of_lt (a := count _) (b := 1) (by omega), addSz_of_lt (by omega)]; omega
  · exact h

theorem Sized_RotateRight {t : Node T} (h : Sized t) (hc : count t < 2 ^ 64) :
    Sized (RotateRight t) := by
  unfold RotateRight; split
  · simp only [Sized_node, count_node] at h hc ⊢
    obtain ⟨h1, ⟨h2, h3, h4⟩, h5⟩ := h
    subst h1 h2
    refine ⟨rfl, h3, ?_, h4, h5⟩
    rw [addSz_of_lt (a := count _) (b := 1) (by omega), subSz_of_le (by omega) (by omega)]
    omega
  · exact h

theorem Sized_Fixup {t : Node T} (h : Sized t) (hc : count t < 2 ^ 64) : Sized (Fixup t) := by
  unfold Fixup; simp only []
  split <;> split <;> simp <;>
    first
    | exact h
    | exact Sized_RotateLeft h hc
    | exact Sized_RotateRight h hc
    | exact Sized_RotateRight (Sized_RotateLeft h hc) (by rw [count_RotateLeft]; exact hc)

theorem Sized_setRight {t r : Node T} (h : Sized t) (hr : Sized r) : Sized (setRight t r) := by
  cases t <;> simp_all [setRight]

theorem Sized_getRight {t : Node T} (h : Sized t) : Sized t.getRight := by
  cases t <;> simp_all

theorem count_getRight_le (t : Node T) : count t.getRight ≤ count t := by
  cases t with
  | null => simp
  | node i b s l r => simp

theorem Sized_MoveRedLeft {t : Node T} (h : Sized t) (hc : count t < 2 ^ 64) :
    Sized (MoveRedLeft t) := by
  unfold MoveRedLeft; simp only []; split
  · simp only [Sized_SwitchColours]
    apply Sized_RotateLeft
    · apply Sized_setRight (by simpa using h)
      apply Sized_RotateRight
      · exact Sized_getRight (by simpa using h)
      · have := count_getRight_le (SwitchColours t); simp at this; omega
    · rw [count_setRight]
      · simp; exact hc
      · simp
  · simpa using h

theorem Sized_MoveRedRight {t : Node T} (h : Sized t) (hc : count t < 2 ^ 64) :
    Sized (MoveRedRight t) := by
  unfold MoveRedRight; simp only []; split
  · simp only [Sized_SwitchColours]
    exact Sized_RotateRight (by simpa using h) (by rw [count_SwitchColours]; exact hc)
  · simpa using h

end Node
end RedBlackTree

namespace RedBlackTree
namespace Node

variable {T : Type}

/-! ### Shape predicates on constructors -/

@[simp] theorem bheight_null : bheight (null : Node T) = 0 := rfl
@[simp] theorem bheight_node (i : T) (b s l r) :
    bheight (node i b s l r) = bheight l + boolSz b := rfl
@[simp] theorem invh_null : invh (null : Node T) = True := rfl
@[simp] theorem invh_node (i : T) (b s l r) :
    invh (node i b s l r) = (bheight l = bheight r ∧ invh l ∧ invh r) := rfl
@[simp] theorem invc_null : invc (null : Node T) = True := rfl
@[simp] theorem invc_node (i : T) (b s l r) :
    invc (node i b s l r) = (r.IsRed = false ∧ (b = false → l.IsRed = false) ∧ invc l ∧ invc r) :=
  rfl
@[simp] theorem invc2_null : invc2 (null : Node T) = True := rfl
@[simp] theorem invc2_node (i : T) (b s l r) :
    invc2 (node i b s l r) = (r.IsRed = false ∧ invc l ∧ invc r) := rfl
@[simp] theorem boolSz_true : boolSz true = 1 := rfl
@[simp] theorem boolSz_false : boolSz false = 0 := rfl

theorem invc2_of_invc {t : Node T} (h : invc t) : invc2 t := by
  cases t <;> simp_all

/-- Shape of `Fixup` after an insertion into the left subtree. -/
theorem Fixup_insert_left (i : T) (b : Bool) (s s1 : Nat) (l l1 r : Node T)
    (hc : invc2 (node i b s l r)) (hh : invh (node i b s l r))
    (h1c : invc2 l1) (h1h : invh l1) (h1b : bheight l1 = bheight l)
    (h1r : l.IsRed = false → invc l1) :
    invc2 (Fixup (node i b s1 l1 r)) ∧ invh (Fixup (node i b s1 l1 r)) ∧
    (invc (node i b s l r) →
      bheight (Fixup (node i b s1 l1 r)) = bheight (node i b s l r) ∧
      (b = true → invc (Fixup (node i b s1 l1 r)))) := by
  rcases l1 with _ | ⟨li, lb, ls, ll, lr⟩
  · cases b <;> simp_all [Fixup, MoveRedUp]
  · rcases ll with _ | ⟨lli, llb, lls, lll, llr⟩ <;> cases b <;> cases lb <;>
      (try cases llb) <;>
      simp_all [Fixup, MoveRedUp, RotateRight, RotateLeft, SwitchColours, flipBlack] <;>
      omega

/-- Shape of `Fixup` after an insertion into the right subtree. -/
theorem Fixup_insert_right (i : T) (b : Bool) (s : Nat) (l r r1 : Node T)
    (hc : invc2 (node i b s l r)) (hh : invh (node i b s l r))
    (h1c : invc r1) (h1h : invh r1) (h1b : bheight r1 = bheight r) :
    invc2 (Fixup (node i b s l r1)) ∧ invh (Fixup (node i b s l r1)) ∧
    (invc (node i b s l r) →
      bheight (Fixup (node i b s l r1)) = bheight (node i b s l r) ∧
      (b = true → invc (Fixup (node i b s l r1)))) := by
  rcases r1 with _ | ⟨ri, rb, rs, rl, rr⟩ <;> rcases l with _ | ⟨li, lb, ls, ll, lr⟩ <;>
    cases b <;> (try cases rb) <;> (try cases lb) <;>
    simp_all [Fixup, MoveRedUp, RotateRight, RotateLeft, SwitchColours, flipBlack] <;>
    omega

section Ins
variable [LinearOrder T]

/-- Shape and balance after `Node::Insert`, for a present node whose subtrees are well formed. -/
theorem Insert_shape (x : T) (t : Node T) (hc : invc2 t) (hh : invh t) :
    invc2 (Insert t x).2 ∧ invh (Insert t x).2 ∧
    (invc t → bheight (Insert t x).2 = bheight t ∧ (t.IsRed = false → invc (Insert t x).2)) := by
  induction t with
  | null => simp [Insert]
  | node i b s l r ihl ihr =>
    unfold Insert
    by_cases hi : i = x
    · simp only [hi, if_true]
      exact ⟨hc, hh, fun h => ⟨trivial, fun _ => h⟩⟩
    · simp only [hi, if_false]
      have hcl : invc l := by simp at hc; exact hc.2.1
      have hcr : invc r := by simp at hc; exact hc.2.2
      have hrr : r.IsRed = false := by simp at hc; exact hc.1
      have hhl : invh l := by simp at hh; exact hh.2.1
      have hhr : invh r := by simp at hh; exact hh.2.2
      by_cases hlt : x < i
      · simp only [hlt, if_true]
        cases l with
        | null =>
          simp only []
          have := Fixup_insert_left i b s (addSz s 1) null (node x false 0 null null) r hc hh
            (by simp) (by simp) (by simp) (by simp)
          simpa using this
        | node li lb ls ll lr =>
          simp only []
          obtain ⟨h1, h2, h3⟩ := ihl (invc2_of_invc hcl) hhl
          have := Fixup_insert_left i b s
            (addSz s (boolSz (Insert (node li lb ls ll lr) x).1)) (node li lb ls ll lr)
            (Insert (node li lb ls ll lr) x).2 r hc hh h1 h2 (h3 hcl).1 (h3 hcl).2
          simpa using this
      · simp only [hlt, if_false]
        cases r with
        | null =>
          simp only []
          have := Fixup_insert_right i b s l null (node x false 0 null null) hc hh
            (by simp) (by simp) (by simp)
          simpa using this
        | node ri rb rs rl rr =>
          simp only []
          obtain ⟨h1, h2, h3⟩ := ihr (invc2_of_invc hcr) hhr
          have := Fixup_insert_right i b s l (node ri rb rs rl rr)
            (Insert (node ri rb rs rl rr) x).2 hc hh ((h3 hcr).2 hrr) h2 (h3 hcr).1
          simpa using this
end Ins

end Node
end RedBlackTree

namespace RedBlackTree
namespace Node

variable {T : Type} [LinearOrder T]

/-! ### Sorted lists -/

theorem filter_lt_of_forall_gt {x : T} {L : List T} (h : ∀ y ∈ L, x < y) :
    L.filter (fun y => decide (y < x)) = [] ∧ L.filter (fun y => decide (x < y)) = L := by
  constructor
  · rw [List.filter_eq_nil_iff]
    intro y hy; simpa using le_of_lt (h y hy)
  · rw [List.filter_eq_self]
    intro y hy; simpa using h y hy

theorem filter_lt_of_forall_lt {x : T} {L : List T} (h : ∀ y ∈ L, y < x) :
    L.filter (fun y => decide (y < x)) = L ∧ L.filter (fun y => decide (x < y)) = [] := by
  constructor
  · rw [List.filter_eq_self]
    intro y hy; simpa using h y hy
  · rw [List.filter_eq_nil_iff]
    intro y hy; simpa using le_of_lt (h y hy)

/-- The sorted list `L` with `x` put at its place (`x` itself is kept once). -/
theorem sorted_ins {x : T} {L : List T} (h : L.Sorted (· < ·)) :
    (L.filter (fun y => decide (y < x)) ++ x :: L.filter (fun y => decide (x < y))).Sorted
      (· < ·) := by
  unfold List.Sorted at h ⊢
  rw [List.pairwise_append]
  refine ⟨h.filter _, ?_, ?_⟩
  · rw [List.pairwise_cons]
    refine ⟨?_, h.filter _⟩
    intro y hy; simpa using (List.mem_filter.1 hy).2
  · intro a ha b hb
    have ha2 : a < x := by simpa using (List.mem_filter.1 ha).2
    rcases List.mem_cons.1 hb with rfl | hb
    · exact ha2
    · have : x < b := by simpa using (List.mem_filter.1 hb).2
      exact lt_trans ha2 this

theorem mem_ins {x y : T} {L : List T} :
    y ∈ L.filter (fun y => decide (y < x)) ++ x :: L.filter (fun y => decide (x < y)) ↔
      y ∈ L ∨ y = x := by
  simp only [List.mem_append, List.mem_cons, List.mem_filter, decide_eq_true_eq]
  constructor
  · rintro (⟨h, _⟩ | rfl | ⟨h, _⟩) <;> simp_all
  · rintro (h | rfl)
    · rcases lt_trichotomy y x with h1 | h1 | h1
      · exact Or.inl ⟨h, h1⟩
      · exact Or.inr (Or.inl h1)
      · exact Or.inr (Or.inr ⟨h, h1⟩)
    · exact Or.inr (Or.inl rfl)

/-- Decomposition of the sortedness of an in-order traversal at the root. -/
theorem sorted_node {i : T} {L R : List T} (h : (L ++ i :: R).Sorted (· < ·)) :
    L.Sorted (· < ·) ∧ R.Sorted (· < ·) ∧ (∀ y ∈ L, y < i) ∧ (∀ y ∈ R, i < y) := by
  unfold List.Sorted at h ⊢
  rw [List.pairwise_append, List.pairwise_cons] at h
  exact ⟨h.1, h.2.1.2, fun y hy => h.2.2 y hy i (List.mem_cons_self _ _), h.2.1.1⟩

theorem ins_left {x i : T} {L R : List T} (h : (L ++ i :: R).Sorted (· < ·)) (hx : x < i) :
    (L ++ i :: R).filter (fun y => decide (y < x)) ++
        x :: (L ++ i :: R).filter (fun y => decide (x < y)) =
      (L.filter (fun y => decide (y < x)) ++ x :: L.filter (fun y => decide (x < y))) ++
        i :: R := by
  obtain ⟨_, _, _, h4⟩ := sorted_node h
  have hR : ∀ y ∈ i :: R, x < y := by
    intro y hy
    rcases List.mem_cons.1 hy with rfl | hy
    · exact hx
    · exact lt_trans hx (h4 y hy)
  obtain ⟨e1, e2⟩ := filter_lt_of_forall_gt hR
  rw [List.filter_append, List.filter_append, e1, e2]
  simp

theorem ins_right {x i : T} {L R : List T} (h : (L ++ i :: R).Sorted (· < ·)) (hx : i < x) :
    (L ++ i :: R).filter (fun y => decide (y < x)) ++
        x :: (L ++ i :: R).filter (fun y => decide (x < y)) =
      L ++ i :: (R.filter (fun y => decide (y < x)) ++ x :: R.filter (fun y => decide (x < y))) := by
  obtain ⟨_, _, h3, _⟩ := sorted_node h
  have hL : ∀ y ∈ L, y < x := fun y hy => lt_trans (h3 y hy) hx
  obtain ⟨e1, e2⟩ := filter_lt_of_forall_lt hL
  rw [List.filter_append, List.filter_append, e1, e2]
  simp [List.filter_cons, hx, not_lt_of_lt hx]

theorem ins_self {i : T} {L R : List T} (h : (L ++ i :: R).Sorted (· < ·)) :
    (L ++ i :: R).filter (fun y => decide (y < i)) ++
        i :: (L ++ i :: R).filter (fun y => decide (i < y)) = L ++ i :: R := by
  obtain ⟨_, _, h3, h4⟩ := sorted_node h
  obtain ⟨e1, e2⟩ := filter_lt_of_forall_lt h3
  obtain ⟨e3, e4⟩ := filter_lt_of_forall_gt h4
  rw [List.filter_append, List.filter_append, e1, e2]
  simp [List.filter_cons, e3, e4]

/-! ### Content of `Node::Insert` -/

/-- In-order content after `Node::Insert` on a present, sorted subtree. -/
theorem toList_Insert (x : T) (t : Node T) (ht : t ≠ null) (hs : (toList t).Sorted (· < ·)) :
    toList (Insert t x).2 =
      (toList t).filter (fun y => decide (y < x)) ++
        x :: (toList t).filter (fun y => decide (x < y)) := by
  induction t with
  | null => exact absurd rfl ht
  | node i b s l r ihl ihr =>
    obtain ⟨hsl, hsr, _, _⟩ := sorted_node (by simpa using hs)
    unfold Insert
    by_cases hi : i = x
    · subst hi
      simp only [if_true, toList_node]
      exact (ins_self hs).symm
    · simp only [hi, if_false]
      by_cases hlt : x < i
      · simp only [hlt, if_true, toList_node]
        rw [ins_left hs hlt]
        cases l with
        | null => simp
        | node li lb ls ll lr =>
          simp only [toList_Fixup]
          rw [toList_node i, ihl (by simp) hsl]
      · simp only [hlt, if_false, toList_node]
        have hgt : i < x := lt_of_le_of_ne (not_lt.1 hlt) hi
        rw [ins_right hs hgt]
        cases r with
        | null => simp
        | node ri rb rs rl rr =>
          simp only [toList_Fixup]
          rw [toList_node i, ihr (by simp) hsr]

/-- The flag returned by `Node::Insert` tells whether the item was absent. -/
theorem Insert_fst (x : T) (t : Node T) (ht : t ≠ null) (hs : (toList t).Sorted (· < ·)) :
    (Insert t x).1 = true ↔ x ∉ toList t := by
  induction t with
  | null => exact absurd rfl ht
  | node i b s l r ihl ihr =>
    obtain ⟨hsl, hsr, h3, h4⟩ := sorted_node (by simpa using hs)
    unfold Insert
    by_cases hi : i = x
    · subst hi; simp
    · simp only [hi, if_false]
      have hi2 : ¬ x = i := fun h => hi h.symm
      by_cases hlt : x < i
      · simp only [hlt, if_true, toList_node, List.mem_append, List.mem_cons, hi2, false_or]
        have hr : x ∉ toList r := fun h => lt_asymm hlt (h4 x h)
        cases l with
        | null => simp [hr]
        | node li lb ls ll lr =>
          simp only []
          rw [ihl (by simp) hsl]; simp [hr]
      · simp only [hlt, if_false, toList_node, List.mem_append, List.mem_cons, hi2, false_or]
        have hl : x ∉ toList l := fun h => hlt (h3 x h)
        cases r with
        | null => simp [hl]
        | node ri rb rs rl rr =>
          simp only []
          rw [ihr (by simp) hsr]; simp [hl]

/-- Node count after `Node::Insert`. -/
theorem count_Insert (x : T) (t : Node T) (ht : t ≠ null) :
    count (Insert t x).2 = count t + boolSz (Insert t x).1 := by
  induction t with
  | null => exact absurd rfl ht
  | node i b s l r ihl ihr =>
    unfold Insert
    by_cases hi : i = x
    · simp [hi]
    · simp only [hi, if_false]
      by_cases hlt : x < i
      · simp only [hlt, if_true]
        cases l with
        | null => simp; omega
        | node li lb ls ll lr =>
          simp only [count_Fixup]
          rw [count_node i, ihl (by simp)]; simp; omega
      · simp only [hlt, if_false]
        cases r with
        | null => simp
        | node ri rb rs rl rr =>
          simp only [count_Fixup]
          rw [count_node i, ihr (by simp)]; simp; omega

theorem boolSz_le (b : Bool) : boolSz b ≤ 1 := by cases b <;> simp

/-- The size augmentation survives `Node::Insert`. -/
theorem Sized_Insert (x : T) (t : Node T) (hz : Sized t) (hc : count t + 1 < 2 ^ 64) :
    Sized (Insert t x).2 := by
  induction t with
  | null => simp [Insert]
  | node i b s l r ihl ihr =>
    simp only [Sized_node] at hz
    obtain ⟨hs, hzl, hzr⟩ := hz
    simp only [count_node] at hc
    unfold Insert
    by_cases hi : i = x
    · simp only [hi, if_true, Sized_node]; exact ⟨hs, hzl, hzr⟩
    · simp only [hi, if_false]
      by_cases hlt : x < i
      · simp only [hlt, if_true]
        cases l with
        | null =>
          simp only []
          apply Sized_Fixup
          · simp only [Sized_node, count_node, count_null]
            simp only [count_null] at hs
            subst hs
            exact ⟨by rw [addSz_of_lt (by omega)], ⟨trivial, trivial, trivial⟩, hzr⟩
          · simp only [count_node, count_null] at hc ⊢; omega
        | node li lb ls ll lr =>
          simp only []
          have hcnt := count_Insert x (node li lb ls ll lr) (by simp)
          have hb := boolSz_le (Insert (node li lb ls ll lr) x).1
          apply Sized_Fixup
          · simp only [Sized_node]
            refine ⟨?_, ihl hzl (by omega), hzr⟩
            rw [hcnt, hs, addSz_of_lt (by omega)]
          · simp only [count_node]; rw [hcnt]; omega
      · simp only [hlt, if_false]
        cases r with
        | null =>
          simp only []
          apply Sized_Fixup
          · simp only [Sized_node]
            exact ⟨hs, hzl, rfl, trivial, trivial⟩
          · simp only [count_node, count_null] at hc ⊢; omega
        | node ri rb rs rl rr =>
          simp only []
          have hcnt := count_Insert x (node ri rb rs rl rr) (by simp)
          have hb := boolSz_le (Insert (node ri rb rs rl rr) x).1
          apply Sized_Fixup
          · simp only [Sized_node]
            exact ⟨hs, hzl, ihr hzr (by omega)⟩
          · simp only [count_node]; rw [hcnt]; omega

end Node
end RedBlackTree

namespace RedBlackTree
namespace Node

variable {T : Type}

/-! ### The two outcomes of `MoveRedLeft` and of `MoveRedRight` -/

theorem MoveRedLeft_rotate (i : T) (b : Bool) (s : Nat) (l : Node T) (ri : T) (rb : Bool)
    (rs : Nat) (rli : T) (rls : Nat) (rll rlr rr : Node T) :
    MoveRedLeft (node i b s l (node ri rb rs (node rli false rls rll rlr) rr)) =
      node rli b (addSz rls (addSz s 1)) (node i rb s (flipBlack l) rll)
        (node ri true (subSz rs (addSz rls 1)) rlr rr) := by
  simp [MoveRedLeft, SwitchColours, flipBlack, setRight, RotateRight, RotateLeft]

theorem MoveRedLeft_switch (i : T) (b : Bool) (s : Nat) (l r : Node T)
    (h : r.IsLeftRed = false) :
    MoveRedLeft (node i b s l r) = node i (!b) s (flipBlack l) (flipBlack r) := by
  rcases r with _ | ⟨ri, rb, rs, rl, rr⟩
  · simp [MoveRedLeft, SwitchColours, flipBlack]
  · simp at h
    simp [MoveRedLeft, SwitchColours, flipBlack, h]

theorem MoveRedRight_rotate (i : T) (b : Bool) (s : Nat) (li : T) (lb : Bool) (ls : Nat)
    (lli : T) (lls : Nat) (lll llr lr r : Node T) :
    MoveRedRight (node i b s (node li lb ls (node lli false lls lll llr) lr) r) =
      node li b ls (node lli true lls lll llr)
        (node i lb (subSz s (addSz ls 1)) lr (flipBlack r)) := by
  simp [MoveRedRight, SwitchColours, flipBlack, RotateRight]

theorem MoveRedRight_switch (i : T) (b : Bool) (s : Nat) (l r : Node T)
    (h : l.IsLeftRed = false) :
    MoveRedRight (node i b s l r) = node i (!b) s (flipBlack l) (flipBlack r) := by
  rcases l with _ | ⟨li, lb, ls, ll, lr⟩
  · simp [MoveRedRight, SwitchColours, flipBlack]
  · simp at h
    simp [MoveRedRight, SwitchColours, flipBlack, h]

/-- Descent of `Node::Delete` and `Node::DeleteMin` into the left subtree: the node after the
optional `MoveRedLeft`, and the shape `Fixup` restores once the left subtree has been processed. -/
theorem descend_left_shape (i : T) (b : Bool) (s : Nat) (l r : Node T)
    (hc : invc2 (node i b s l r)) (hh : invh (node i b s l r)) :
    ∃ i1 b1 s1 l1 r1,
      (if (!l.isNull && l.IsBlack && l.IsLeftBlack) = true then MoveRedLeft (node i b s l r)
        else node i b s l r) = node i1 b1 s1 l1 r1 ∧
      invc l1 ∧ invh l1 ∧ Entry l1 ∧ (i1 = i ∨ i ∈ toList l1) ∧
      (l1 = null → invc (node i b s l r) → Entry (node i b s l r) →
        r1 = null ∧ bheight (node i b s l r) = 0) ∧
      ∀ (l2 : Node T) (s2 : Nat), invc l2 → invh l2 → bheight l1 = bheight l2 →
        (l1.IsRed = false → l2.IsRed = false) →
        DelPost (node i b s l r) (Fixup (node i1 b1 s2 l2 r1)) := by
  rcases l with _ | ⟨li, lb, ls, ll, lr⟩
  · refine ⟨i, b, s, null, r, by simp, by simp, by simp, by simp [Entry], by simp, ?_, ?_⟩
    · intro _ h1 h2
      rcases r with _ | ⟨ri, rb, rs, rl, rr⟩
      · cases b <;> simp_all [Entry]
      · cases rb <;> cases b <;> simp_all [Entry]
    · intro l2 s2 h1 h2 h3 h4
      rcases l2 with _ | ⟨i2, b2, s2, ll2, lr2⟩
      · cases b <;> simp_all [DelPost, StrongPost, Entry, Fixup, MoveRedUp]
      · cases b <;> cases b2 <;> simp_all [DelPost, StrongPost, Entry, Fixup, MoveRedUp]
  · by_cases hmv : (lb = true ∧ ll.IsRed = false)
    · obtain ⟨hlb, hll⟩ := hmv
      subst hlb
      have hcond : (!(node li true ls ll lr).isNull && (node li true ls ll lr).IsBlack &&
          (node li true ls ll lr).IsLeftBlack) = true := by simp [hll]
      rw [if_pos hcond]
      rcases r with _ | ⟨ri, rb, rs, rl, rr⟩
      · exfalso; simp at hh
      · by_cases hrl : rl.IsRed = true
        · rcases rl with _ | ⟨rli, rlb, rls, rll, rlr⟩
          · simp at hrl
          · simp at hrl; subst hrl
            rw [MoveRedLeft_rotate]
            refine ⟨_, _, _, _, _, rfl, ?_, ?_, ?_, by simp, ?_, ?_⟩
            · simp_all [flipBlack]
            · simp_all [flipBlack]; omega
            · simp [Entry, flipBlack]
            · simp
            · intro l2 s2 h1 h2 h3 h4
              rcases l2 with _ | ⟨i2, b2, s2, ll2, lr2⟩ <;> cases b <;> cases rb <;>
                (try cases b2) <;>
                simp_all [DelPost, StrongPost, Entry, Fixup, MoveRedUp, RotateLeft, RotateRight,
                  SwitchColours, flipBlack] <;> omega
        · rw [MoveRedLeft_switch _ _ _ _ _ (by simpa using hrl)]
          refine ⟨_, _, _, _, _, rfl, ?_, ?_, ?_, by simp, ?_, ?_⟩
          · simp_all [flipBlack]
          · simp_all [flipBlack]
            omega
          · simp [Entry, flipBlack]
          · simp [flipBlack]
          · intro l2 s2 h1 h2 h3 h4
            rcases l2 with _ | ⟨i2, b2, s2, ll2, lr2⟩ <;> cases b <;> cases rb <;>
              (try cases b2) <;>
              simp_all [DelPost, StrongPost, Entry, Fixup, MoveRedUp, RotateLeft, RotateRight,
                SwitchColours, flipBlack] <;> omega
    · have hcond : ¬ (!(node li lb ls ll lr).isNull && (node li lb ls ll lr).IsBlack &&
          (node li lb ls ll lr).IsLeftBlack) = true := by
        cases lb <;> simp_all
      rw [if_neg hcond]
      refine ⟨_, _, _, _, _, rfl, ?_, ?_, ?_, by simp, ?_, ?_⟩
      · simp_all
      · simp_all
      · cases lb <;> simp_all [Entry]
      · simp
      · intro l2 s2 h1 h2 h3 h4
        rcases l2 with _ | ⟨i2, b2, s2, ll2, lr2⟩ <;> cases b <;> cases lb <;>
          (try cases b2) <;>
          simp_all [DelPost, StrongPost, Entry, Fixup, MoveRedUp, RotateLeft, RotateRight,
            SwitchColours, flipBlack]

section Right
variable [LinearOrder T]

/-- Descent of `Node::Delete` into the right subtree: the node after the optional `RotateRight`
and the optional `MoveRedRight`, and the shape `Fixup` restores afterwards. -/
theorem descend_right_shape (x i : T) (b : Bool) (s : Nat) (l r : Node T)
    (hh : invh (node i b s l r)) (hc : invc2 (node i b s l r) ∨ RedRight x (node i b s l r))
    (hx : ¬ x < i) (hl : ∀ y ∈ toList l, y ≠ x) :
    ∃ i1 b1 s1 l1 r1,
      (if (node i b s l r).IsLeftRed = true then RotateRight (node i b s l r)
        else node i b s l r) = node i1 b1 s1 l1 r1 ∧
      (r1 = null → l1 = null ∧ (Proper x (node i b s l r) → bheight (node i b s l r) = 0)) ∧
      ∃ i2 b2 s2 l2 r2,
        (if ((node i1 b1 s1 l1 r1).IsRightBlack && !r1.isNull && r1.IsLeftBlack) = true
          then MoveRedRight (node i1 b1 s1 l1 r1) else node i1 b1 s1 l1 r1) =
          node i2 b2 s2 l2 r2 ∧
        (r1 ≠ null → r2 ≠ null) ∧ (r1 = null → i2 = i1) ∧ (i2 = i ∨ i ∈ toList r2) ∧
        invh r2 ∧ Proper x r2 ∧ (i2 = x → invc r2 ∧ Entry r2) ∧
        ∀ (r3 : Node T) (i3 : T), invc r3 → invh r3 → bheight r2 = bheight r3 →
          (r2.IsRed = false → r3.IsRed = false) →
          DelPostX x (node i b s l r) (Fixup (node i3 b2 s2 l2 r3)) := by
  by_cases hlr : l.IsRed = true
  · -- the left child is red: rotate right, continue into the old root
    rcases l with _ | ⟨li, lb, ls, ll, lr⟩
    · simp at hlr
    · simp at hlr; subst hlr
      have hc2 : invc2 (node i b s (node li false ls ll lr) r) := by
        rcases hc with hc | hc
        · exact hc
        · simp [RedRight] at hc
      rw [if_pos (by simp)]
      simp only [RotateRight]
      refine ⟨_, _, _, _, _, rfl, by simp, ?_⟩
      rw [if_neg (by simp)]
      refine ⟨_, _, _, _, _, rfl, by simp, by simp, by simp, ?_, ?_, ?_, ?_⟩
      · simp_all
        omega
      · left; simp_all [Entry]
      · intro _; simp_all [Entry]
      · intro r3 i3 h1 h2 h3 h4
        rcases r3 with _ | ⟨i4, b4, s4, l4, r4⟩ <;> cases b <;> (try cases b4) <;>
          simp_all [DelPostX, Proper, RedRight, StrongPost, Entry, Fixup, MoveRedUp,
            RotateLeft, RotateRight, SwitchColours, flipBlack] <;> omega
  · have hlr2 : l.IsRed = false := by simpa using hlr
    rw [if_neg (by simpa using hlr)]
    refine ⟨_, _, _, _, _, rfl, ?_, ?_⟩
    · -- no right child: by balance there is no left child either
      intro hr; subst hr
      rcases l with _ | ⟨li, lb, ls, ll, lr⟩
      · cases b <;> simp_all [Proper, RedRight, Entry]
      · cases lb <;> simp_all [Proper, RedRight, Entry]
    · by_cases hmv : (r ≠ null ∧ r.IsRed = false ∧ r.IsLeftRed = false)
      · obtain ⟨hr0, hrr, hrl⟩ := hmv
        have hc2 : invc2 (node i b s l r) := by
          rcases hc with hc | hc
          · exact hc
          · simp [RedRight, hrr] at hc
        have hcond : ((node i b s l r).IsRightBlack && !r.isNull && r.IsLeftBlack) = true := by
          rcases r with _ | ⟨ri, rb, rs, rl, rr⟩
          · exact absurd rfl hr0
          · simp_all
        rw [if_pos hcond]
        by_cases hll : l.IsLeftRed = true
        · -- MoveRedRight rotates
          rcases l with _ | ⟨li, lb, ls, ll, lr⟩
          · simp at hll
          · rcases ll with _ | ⟨lli, llb, lls, lll, llr⟩
            · simp at hll
            · simp at hll; subst hll
              have hli : li ≠ x := hl li (by simp)
              rw [MoveRedRight_rotate]
              rcases r with _ | ⟨ri, rb, rs, rl, rr⟩
              · exact absurd rfl hr0
              · refine ⟨_, _, _, _, _, rfl, by simp, by simp, by simp, ?_, ?_, ?_, ?_⟩
                · simp_all [flipBlack]
                  omega
                · right; simp_all [RedRight, flipBlack]
                · intro h; exact absurd h hli
                · intro r3 i3 h1 h2 h3 h4
                  rcases r3 with _ | ⟨i4, b4, s4, l4, r4⟩ <;> cases b <;> (try cases b4) <;>
                    simp_all [DelPostX, Proper, RedRight, StrongPost, Entry, Fixup, MoveRedUp,
                      RotateLeft, RotateRight, SwitchColours, flipBlack] <;> omega
        · rw [MoveRedRight_switch _ _ _ _ _ (by simpa using hll)]
          rcases r with _ | ⟨ri, rb, rs, rl, rr⟩
          · exact absurd rfl hr0
          · refine ⟨_, _, _, _, _, rfl, by simp [flipBlack], by simp, by simp, ?_, ?_, ?_, ?_⟩
            · simp_all [flipBlack]
            · left; simp_all [Entry, flipBlack]
            · intro _; simp_all [Entry, flipBlack]
            · intro r3 i3 h1 h2 h3 h4
              rcases l with _ | ⟨li, lb, ls, ll, lr⟩ <;>
              rcases r3 with _ | ⟨i4, b4, s4, l4, r4⟩ <;> cases b <;> (try cases b4) <;>
                (try cases lb) <;>
                simp_all [DelPostX, Proper, RedRight, StrongPost, Entry, Fixup, MoveRedUp,
                  RotateLeft, RotateRight, SwitchColours, flipBlack] <;> omega
      · have hcond : ¬ ((node i b s l r).IsRightBlack && !r.isNull && r.IsLeftBlack) = true := by
          rcases r with _ | ⟨ri, rb, rs, rl, rr⟩
          · simp
          · simp_all
        rw [if_neg hcond]
        refine ⟨_, _, _, _, _, rfl, fun h => h, fun _ => rfl, by simp, ?_, ?_, ?_, ?_⟩
        · rcases hc with hc | hc <;> simp_all [RedRight]
        · left
          rcases r with _ | ⟨ri, rb, rs, rl, rr⟩
          · simp [Entry]
          · rcases hc with hc | hc <;> cases rb <;> simp_all [RedRight, Entry]
        · intro _
          rcases r with _ | ⟨ri, rb, rs, rl, rr⟩
          · simp [Entry]
          · rcases hc with hc | hc <;> cases rb <;> simp_all [RedRight, Entry]
        · intro r3 i3 h1 h2 h3 h4
          rcases r with _ | ⟨ri, rb, rs, rl, rr⟩ <;>
          rcases r3 with _ | ⟨i4, b4, s4, l4, r4⟩ <;> cases b <;> (try cases b4) <;>
            (try cases rb) <;> rcases hc with hc | hc <;>
            simp_all [DelPostX, Proper, RedRight, StrongPost, Entry, Fixup, MoveRedUp,
              RotateLeft, RotateRight, SwitchColours, flipBlack]
end Right

end Node
end RedBlackTree

namespace RedBlackTree
namespace Node

variable {T : Type}

/-! ### The successor swap -/

theorem tail_append_of_ne {L : List T} (M : List T) (h : L ≠ []) :
    L.tail ++ M = (L ++ M).tail := by
  cases L with
  | nil => exact absurd rfl h
  | cons a L => rfl

theorem tail_append_cons (A B M : List T) (a : T) :
    (A ++ a :: B).tail ++ M = (A ++ a :: (B ++ M)).tail := by
  cases A <;> simp

theorem toList_setMinItem (x : T) (t : Node T) (ht : t ≠ null) :
    toList (setMinItem t x) = x :: (toList t).tail := by
  induction t with
  | null => exact absurd rfl ht
  | node i b s l r ihl _ =>
    cases l with
    | null => simp [setMinItem]
    | node li lb ls ll lr =>
      simp only [setMinItem, toList_node i]
      rw [ihl (by simp)]
      simp only [toList_node, List.cons_append]
      rw [tail_append_cons]
      simp

theorem toList_eq_minItem_cons (d : T) (t : Node T) (ht : t ≠ null) :
    toList t = minItem t d :: (toList t).tail := by
  induction t with
  | null => exact absurd rfl ht
  | node i b s l r ihl _ =>
    cases l with
    | null => simp [minItem]
    | node li lb ls ll lr =>
      simp only [minItem, toList_node i]
      have h := ihl (by simp)
      generalize toList (node li lb ls ll lr) = L at h ⊢
      rw [h]; simp

@[simp] theorem count_setMinItem (x : T) (t : Node T) : count (setMinItem t x) = count t := by
  induction t with
  | null => rfl
  | node i b s l r ihl _ =>
    cases l with
    | null => simp [setMinItem]
    | node li lb ls ll lr => simp only [setMinItem, count_node i, ihl]

@[simp] theorem Sized_setMinItem (x : T) (t : Node T) : Sized (setMinItem t x) = Sized t := by
  induction t with
  | null => rfl
  | node i b s l r ihl _ =>
    cases l with
    | null => simp [setMinItem]
    | node li lb ls ll lr => simp only [setMinItem, Sized_node i, ihl, count_setMinItem]

@[simp] theorem IsRed_setMinItem (x : T) (t : Node T) : (setMinItem t x).IsRed = t.IsRed := by
  rcases t with _ | ⟨i, b, s, l, r⟩
  · rfl
  · cases l <;> simp [setMinItem]

@[simp] theorem bheight_setMinItem (x : T) (t : Node T) :
    bheight (setMinItem t x) = bheight t := by
  induction t with
  | null => rfl
  | node i b s l r ihl _ =>
    cases l with
    | null => simp [setMinItem]
    | node li lb ls ll lr => simp only [setMinItem, bheight_node i, ihl]

@[simp] theorem invh_setMinItem (x : T) (t : Node T) : invh (setMinItem t x) = invh t := by
  induction t with
  | null => rfl
  | node i b s l r ihl _ =>
    cases l with
    | null => simp [setMinItem]
    | node li lb ls ll lr => simp only [setMinItem, invh_node i, ihl, bheight_setMinItem]

@[simp] theorem invc_setMinItem (x : T) (t : Node T) : invc (setMinItem t x) = invc t := by
  induction t with
  | null => rfl
  | node i b s l r ihl _ =>
    cases l with
    | null => simp [setMinItem]
    | node li lb ls ll lr => simp only [setMinItem, invc_node i, ihl, IsRed_setMinItem]

theorem setMinItem_ne_null (x : T) {t : Node T} (ht : t ≠ null) : setMinItem t x ≠ null := by
  rcases t with _ | ⟨i, b, s, l, r⟩
  · exact absurd rfl ht
  · cases l <;> simp [setMinItem]

theorem Entry_setMinItem (x : T) {t : Node T} (h : Entry t) : Entry (setMinItem t x) := by
  rcases t with _ | ⟨i, b, s, l, r⟩
  · exact h
  · rcases l with _ | ⟨li, lb, ls, ll, lr⟩
    · simpa [setMinItem, Entry] using h
    · have := IsRed_setMinItem x (node li lb ls ll lr)
      simp only [setMinItem, Entry] at h ⊢
      simp_all

theorem invc2_setMinItem (x : T) (t : Node T) : invc2 (setMinItem t x) = invc2 t := by
  rcases t with _ | ⟨i, b, s, l, r⟩
  · rfl
  · cases l with
    | null => simp [setMinItem]
    | node li lb ls ll lr => simp only [setMinItem, invc2_node, invc_setMinItem]

/-! ### `Node::DeleteMin` -/

theorem DeleteMinFuel_succ (fuel : Nat) (i : T) (b : Bool) (s : Nat) (l r : Node T) :
    DeleteMinFuel (fuel + 1) (node i b s l r) =
      match (if (!l.isNull && l.IsBlack && l.IsLeftBlack) = true then
          MoveRedLeft (node i b s l r) else node i b s l r) with
      | null => none
      | node _ _ _ null _ => some (true, null)
      | node i1 b1 s1 (node li lb ls ll lr) r1 =>
        match DeleteMinFuel fuel (node li lb ls ll lr) with
        | none => none
        | some res => some (true, Fixup (node i1 b1 (subSz s1 1) res.2 r1)) := by
  have hcond : ((node i b s l r).IsLeftBlack && !l.isNull && l.IsLeftBlack) =
      (!l.isNull && l.IsBlack && l.IsLeftBlack) := by
    cases l <;> simp
  simp only [DeleteMinFuel, hcond]
  try rfl

/-- `Node::DeleteMin` returns, removes the leftmost node and keeps the tree well formed. -/
theorem DeleteMinFuel_spec (fuel : Nat) : ∀ (t : Node T), t ≠ null → count t ≤ fuel →
    invc2 t → invh t →
    ∃ t1, DeleteMinFuel fuel t = some (true, t1) ∧ DelPost t t1 ∧
      (invc t → Entry t →
        toList t1 = (toList t).tail ∧ count t1 + 1 = count t ∧
        (Sized t → count t < 2 ^ 64 → Sized t1)) := by
  induction fuel with
  | zero =>
    intro t ht hf
    exact absurd (count_eq_zero.1 (Nat.le_zero.1 hf)) ht
  | succ fuel ih =>
    intro t ht hf hc hh
    rcases t with _ | ⟨i, b, s, l, r⟩
    · exact absurd rfl ht
    · obtain ⟨i1, b1, s1, l1, r1, hn1, hl1c, hl1h, hl1e, _, hnull, hfix⟩ :=
        descend_left_shape i b s l r hc hh
      rw [DeleteMinFuel_succ, hn1]
      have hcnt : count (node i1 b1 s1 l1 r1) = count (node i b s l r) := by
        rw [← hn1]; split <;> simp
      have hlist : toList (node i1 b1 s1 l1 r1) = toList (node i b s l r) := by
        rw [← hn1]; split <;> simp
      have hsz : Sized (node i b s l r) → count (node i b s l r) < 2 ^ 64 →
          Sized (node i1 b1 s1 l1 r1) := by
        intro h1 h2
        rw [← hn1]; split
        · exact Sized_MoveRedLeft h1 h2
        · exact h1
      rcases l1 with _ | ⟨li, lb, ls, ll, lr⟩
      · -- the leftmost node is reached
        refine ⟨null, rfl, ?_, ?_⟩
        · refine ⟨trivial, trivial, ?_⟩
          intro h1 h2
          exact ⟨trivial, (hnull rfl h1 h2).2.symm, fun _ => rfl⟩
        · intro h1 h2
          have hr1 := (hnull rfl h1 h2).1
          subst hr1
          rw [← hlist, ← hcnt]
          simp
      · have hcnt2 : count (node li lb ls ll lr) + 1 + count r1 = count (node i b s l r) := by
          rw [← hcnt]; rfl
        have hcl : count (node li lb ls ll lr) ≤ fuel := by omega
        obtain ⟨l2, hl2, hpost, hcont⟩ :=
          ih (node li lb ls ll lr) (by simp) hcl (invc2_of_invc hl1c) hl1h
        obtain ⟨hp1, hp2, hp3⟩ := hpost
        obtain ⟨hs1, hs2, hs3⟩ := hp3 hl1c hl1e
        obtain ⟨hk1, hk2, hk3⟩ := hcont hl1c hl1e
        simp only [hl2]
        refine ⟨_, rfl, hfix l2 (subSz s1 1) hs1 hp2 hs2.symm hs3, ?_⟩
        intro _ _
        refine ⟨?_, ?_, ?_⟩
        · rw [toList_Fixup, toList_node, hk1, ← hlist, toList_node i1]
          exact tail_append_of_ne _ (by simp)
        · rw [count_Fixup, count_node]; omega
        · intro hz hlt
          have hz1 := hsz hz hlt
          rw [Sized_node] at hz1
          obtain ⟨hz2, hz3, hz4⟩ := hz1
          apply Sized_Fixup
          · rw [Sized_node]
            refine ⟨?_, hk3 hz3 (by omega), hz4⟩
            rw [hz2, subSz_of_le (by omega) (by omega)]
            omega
          · rw [count_node]; omega

end Node
end RedBlackTree

namespace RedBlackTree
namespace Node

variable {T : Type} [LinearOrder T]

theorem filter_ne_of_forall_ne {x : T} {L : List T} (h : ∀ y ∈ L, y ≠ x) :
    L.filter (fun y => decide (y ≠ x)) = L := by
  rw [List.filter_eq_self]
  intro y hy; simpa using h y hy

theorem DeleteFuel_succ_node (fuel : Nat) (i : T) (b : Bool) (s : Nat) (l r : Node T) (item : T) :
    DeleteFuel (fuel + 1) (node i b s l r) item =
    if item < i then
      match (if (!l.isNull && l.IsBlack && l.IsLeftBlack) = true then MoveRedLeft (node i b s l r)
          else node i b s l r) with
      | null => none
      | node i1 b1 s1 l1 r1 =>
        match DeleteFuel fuel l1 item with
        | none => none
        | some res => some (res.1, Fixup (node i1 b1 (subSz s1 (boolSz res.1)) res.2 r1))
    else
      match (if (node i b s l r).IsLeftRed = true then RotateRight (node i b s l r)
          else node i b s l r) with
      | null => none
      | node i1 b1 s1 l1 r1 =>
        if i1 = item ∧ r1.isNull = true then some (true, null)
        else
          match (if ((node i1 b1 s1 l1 r1).IsRightBlack && !r1.isNull && r1.IsLeftBlack) = true
              then MoveRedRight (node i1 b1 s1 l1 r1) else node i1 b1 s1 l1 r1) with
          | null => none
          | node i2 b2 s2 l2 r2 =>
            if i2 = item then
              match DeleteMinFuel fuel (setMinItem r2 item) with
              | none => none
              | some res => some (res.1, Fixup (node (minItem r2 item) b2 s2 l2 res.2))
            else
              match DeleteFuel fuel r2 item with
              | none => none
              | some res => some (res.1, Fixup (node i2 b2 s2 l2 res.2)) := by
  simp only [DeleteFuel]
  try rfl

theorem sorted_append_cons {i1 : T} {L1 R1 : List T} (h : (L1 ++ i1 :: R1).Sorted (· < ·)) :
    L1.Sorted (· < ·) ∧ R1.Sorted (· < ·) ∧ (∀ y ∈ L1, y < i1) ∧ (∀ y ∈ R1, i1 < y) :=
  sorted_node h

/-- `Node::Delete` returns, removes exactly the item and keeps the tree well formed. -/
theorem DeleteFuel_spec (x : T) (fuel : Nat) : ∀ (t : Node T), count t < fuel →
    (toList t).Sorted (· < ·) → invh t → (invc2 t ∨ RedRight x t) →
    ∃ d t1, DeleteFuel fuel t x = some (d, t1) ∧ DelPostX x t t1 ∧ DelContent x t d t1 := by
  induction fuel with
  | zero => intro t hf; exact absurd hf (Nat.not_lt_zero _)
  | succ fuel ih =>
    intro t hf hs hh hc
    rcases t with _ | ⟨i, b, s, l, r⟩
    · exact ⟨false, null, rfl, ⟨trivial, trivial, fun _ => ⟨trivial, rfl, fun _ => rfl⟩⟩,
        by simp [DelContent]⟩
    · rw [DeleteFuel_succ_node]
      by_cases hlt : x < i
      · -- descent to the left
        rw [if_pos hlt]
        have hc2 : invc2 (node i b s l r) := by
          rcases hc with hc | hc
          · exact hc
          · simp [RedRight, hlt] at hc
        obtain ⟨i1, b1, s1, l1, r1, hn1, hl1c, hl1h, hl1e, hroot, _, hfix⟩ :=
          descend_left_shape i b s l r hc2 hh
        rw [hn1]
        have hcnt : count l1 + 1 + count r1 = count (node i b s l r) := by
          rw [← count_node i1 b1 s1, ← hn1]; split <;> simp
        have hlist : toList l1 ++ i1 :: toList r1 = toList (node i b s l r) := by
          rw [← toList_node i1 b1 s1, ← hn1]; split <;> simp
        have hsz : Sized (node i b s l r) → count (node i b s l r) < 2 ^ 64 →
            Sized (node i1 b1 s1 l1 r1) := by
          intro h1 h2
          rw [← hn1]; split
          · exact Sized_MoveRedLeft h1 h2
          · exact h1
        rw [← hlist] at hs
        obtain ⟨hs1, hs2, hs3, hs4⟩ := sorted_append_cons hs
        obtain ⟨d, l2, hd, hpost, hcont⟩ :=
          ih l1 (by omega) hs1 hl1h (Or.inl (invc2_of_invc hl1c))
        obtain ⟨hq1, hq2, hq3, hq4⟩ := hcont
        obtain ⟨hp1, hp2, hp3⟩ := hpost.2.2 (Or.inl ⟨hl1c, hl1e⟩)
        simp only [hd]
        have hxi1 : x < i1 := by
          rcases hroot with h | h
          · rw [h]; exact hlt
          · exact lt_trans hlt (hs3 i h)
        have hxr : ∀ y ∈ i1 :: toList r1, y ≠ x := by
          intro y hy
          rcases List.mem_cons.1 hy with rfl | hy
          · exact ne_of_gt hxi1
          · exact ne_of_gt (lt_trans hxi1 (hs4 y hy))
        refine ⟨d, _, rfl, ?_, ?_, ?_, ?_, ?_⟩
        · obtain ⟨hf1, hf2, hf3⟩ := hfix l2 (subSz s1 (boolSz d)) hp1 hpost.2.1 hp2.symm hp3
          refine ⟨hf1, hf2, ?_⟩
          rintro (⟨h1, h2⟩ | h)
          · exact hf3 h1 h2
          · simp [RedRight, hlt] at h
        · rw [toList_Fixup, toList_node, hq1, ← hlist, List.filter_append,
            filter_ne_of_forall_ne hxr]
        · rw [hq2, ← hlist]
          simp only [List.mem_append, List.mem_cons]
          constructor
          · exact fun h => Or.inl h
          · rintro (h | h | h)
            · exact h
            · exact absurd h.symm (hxr i1 (List.mem_cons_self _ _))
            · exact absurd rfl (hxr x (List.mem_cons_of_mem _ h))
        · rw [count_Fixup, count_node]; omega
        · intro hz hlt2
          have hz1 := hsz hz hlt2
          rw [Sized_node] at hz1
          obtain ⟨hz2, hz3, hz4⟩ := hz1
          have hb := boolSz_le d
          apply Sized_Fixup
          · rw [Sized_node]
            refine ⟨?_, hq4 hz3 (by omega), hz4⟩
            rw [hz2, subSz_of_le (by omega) (by omega)]
            omega
          · rw [count_node]; omega
      · -- descent to the right, or the item is found
        rw [if_neg hlt]
        have hix : i ≤ x := not_lt.1 hlt
        obtain ⟨hsl, hsr, hsl2, hsr2⟩ := sorted_append_cons (by simpa using hs)
        have hl : ∀ y ∈ toList l, y ≠ x := fun y hy => ne_of_lt (lt_of_lt_of_le (hsl2 y hy) hix)
        obtain ⟨i1, b1, s1, l1, r1, hn1, hr1null, i2, b2, s2, l2, r2, hn2, hr2ne, hr2i, hroot,
            hr2h, hr2p, hr2m, hfix⟩ := descend_right_shape x i b s l r hh hc hlt hl
        rw [hn1]
        dsimp only
        have hcnt1 : count (node i1 b1 s1 l1 r1) = count (node i b s l r) := by
          rw [← hn1]; split <;> simp
        have hlist1 : toList (node i1 b1 s1 l1 r1) = toList (node i b s l r) := by
          rw [← hn1]; split <;> simp
        have hsz1 : Sized (node i b s l r) → count (node i b s l r) < 2 ^ 64 →
            Sized (node i1 b1 s1 l1 r1) := by
          intro h1 h2
          rw [← hn1]; split
          · exact Sized_RotateRight h1 h2
          · exact h1
        by_cases hfound : i1 = x ∧ r1.isNull = true
        · -- the item is in a node without right child
          rw [if_pos hfound]
          obtain ⟨hi1, hr1⟩ := hfound
          have hr1 : r1 = null := (isNull_iff r1).1 hr1
          obtain ⟨hl1, hbh⟩ := hr1null hr1
          subst hr1 hl1 hi1
          refine ⟨true, null, rfl, ⟨trivial, trivial, fun hp => ⟨trivial, (hbh hp).symm,
            fun _ => rfl⟩⟩, ?_, ?_, ?_, ?_⟩
          · rw [← hlist1]; simp
          · rw [← hlist1]; simp
          · rw [← hcnt1]; simp
          · intro _ _; trivial
        · rw [if_neg hfound, hn2]
          dsimp only
          have hcnt : count l2 + 1 + count r2 = count (node i b s l r) := by
            rw [← hcnt1, ← count_node i2 b2 s2, ← hn2]; split <;> simp
          have hlist : toList l2 ++ i2 :: toList r2 = toList (node i b s l r) := by
            rw [← hlist1, ← toList_node i2 b2 s2, ← hn2]; split <;> simp
          have hsz : Sized (node i b s l r) → count (node i b s l r) < 2 ^ 64 →
              Sized (node i2 b2 s2 l2 r2) := by
            intro h1 h2
            rw [← hn2]; split
            · exact Sized_MoveRedRight (hsz1 h1 h2) (by rw [hcnt1]; exact h2)
            · exact hsz1 h1 h2
          rw [← hlist] at hs
          obtain ⟨hs1, hs2, hs3, hs4⟩ := sorted_append_cons hs
          by_cases hi2 : i2 = x
          · -- swap with the successor, delete the minimum of the right subtree
            rw [if_pos hi2]
            have hr1ne : r1 ≠ null := by
              intro h
              exact hfound ⟨(hr2i h).symm.trans hi2, by rw [h]; rfl⟩
            have hr2 : r2 ≠ null := hr2ne hr1ne
            obtain ⟨hr2c, hr2e⟩ := hr2m hi2
            obtain ⟨r3, hr3, hpost, hcont⟩ := DeleteMinFuel_spec fuel (setMinItem r2 x)
              (setMinItem_ne_null x hr2) (by rw [count_setMinItem]; omega)
              (by rw [invc2_setMinItem]; exact invc2_of_invc hr2c)
              (by rw [invh_setMinItem]; exact hr2h)
            obtain ⟨hp1, hp2, hp3⟩ := hpost.2.2 (by rw [invc_setMinItem]; exact hr2c)
              (Entry_setMinItem x hr2e)
            obtain ⟨hq1, hq2, hq3⟩ := hcont (by rw [invc_setMinItem]; exact hr2c)
              (Entry_setMinItem x hr2e)
            rw [bheight_setMinItem] at hp2
            rw [IsRed_setMinItem] at hp3
            rw [toList_setMinItem x r2 hr2] at hq1
            rw [count_setMinItem] at hq2
            rw [Sized_setMinItem, count_setMinItem] at hq3
            simp only [hr3]
            refine ⟨true, _, rfl, hfix r3 (minItem r2 x) hp1 hpost.2.1 hp2.symm hp3, ?_, ?_, ?_, ?_⟩
            · rw [toList_Fixup, toList_node, hq1, List.tail_cons,
                ← toList_eq_minItem_cons x r2 hr2, ← hlist, List.filter_append,
                List.filter_cons, hi2]
              have e1 : (toList l2).filter (fun y => decide (y ≠ x)) = toList l2 :=
                filter_ne_of_forall_ne (fun y hy => ne_of_lt (hi2 ▸ hs3 y hy))
              have e2 : (toList r2).filter (fun y => decide (y ≠ x)) = toList r2 :=
                filter_ne_of_forall_ne (fun y hy => ne_of_gt (hi2 ▸ hs4 y hy))
              rw [e1, e2]; simp
            · rw [← hlist, hi2]; simp
            · rw [count_Fixup, count_node]; simp only [boolSz_true]; omega
            · intro hz hlt2
              have hz1 := hsz hz hlt2
              rw [Sized_node] at hz1
              obtain ⟨hz2, hz3, hz4⟩ := hz1
              apply Sized_Fixup
              · rw [Sized_node]
                exact ⟨hz2, hz3, hq3 hz4 (by omega)⟩
              · rw [count_node]; omega
          · -- continue in the right subtree
            rw [if_neg hi2]
            have hgp : invc2 r2 ∨ RedRight x r2 := by
              rcases hr2p with h | h
              · exact Or.inl (invc2_of_invc h.1)
              · exact Or.inr h
            obtain ⟨d, r3, hd, hpost, hcont⟩ := ih r2 (by omega) hs2 hr2h hgp
            obtain ⟨hq1, hq2, hq3, hq4⟩ := hcont
            obtain ⟨hp1, hp2, hp3⟩ := hpost.2.2 hr2p
            simp only [hd]
            have hi2x : i2 < x := by
              rcases hroot with h | h
              · exact lt_of_le_of_ne (h ▸ hix) hi2
              · exact lt_of_lt_of_le (hs4 i h) hix
            have hxl : ∀ y ∈ toList l2, y ≠ x := fun y hy => ne_of_lt (lt_trans (hs3 y hy) hi2x)
            refine ⟨d, _, rfl, hfix r3 i2 hp1 hpost.2.1 hp2.symm hp3, ?_, ?_, ?_, ?_⟩
            · rw [toList_Fixup, toList_node, hq1, ← hlist, List.filter_append,
                filter_ne_of_forall_ne hxl, List.filter_cons]
              simp [hi2]
            · rw [hq2, ← hlist]
              simp only [List.mem_append, List.mem_cons]
              constructor
              · exact fun h => Or.inr (Or.inr h)
              · rintro (h | h | h)
                · exact absurd rfl (hxl x h)
                · exact absurd h.symm hi2
                · exact h
            · rw [count_Fixup, count_node]; omega
            · intro hz hlt2
              have hz1 := hsz hz hlt2
              rw [Sized_node] at hz1
              obtain ⟨hz2, hz3, hz4⟩ := hz1
              apply Sized_Fixup
              · rw [Sized_node]
                exact ⟨hz2, hz3, hq4 hz4 (by omega)⟩
              · rw [count_node]; omega

end Node
end RedBlackTree

namespace RedBlackTree
namespace Node

variable {T : Type}

/-! ### A larger recursion budget does not change a result -/

theorem DeleteMinFuel_mono (n : Nat) : ∀ (t : Node T) (r : Bool × Node T),
    DeleteMinFuel n t = some r → DeleteMinFuel (n + 1) t = some r := by
  induction n with
  | zero => intro t r h; simp [DeleteMinFuel] at h
  | succ n ih =>
    intro t r h
    rcases t with _ | ⟨i, b, s, l, rr⟩
    · simp [DeleteMinFuel] at h
    · rw [DeleteMinFuel_succ] at h ⊢
      generalize (if (!l.isNull && l.IsBlack && l.IsLeftBlack) = true then
        MoveRedLeft (node i b s l rr) else node i b s l rr) = n1 at h ⊢
      rcases n1 with _ | ⟨i1, b1, s1, l1, r1⟩
      · exact h
      · rcases l1 with _ | ⟨li, lb, ls, ll, lr⟩
        · exact h
        · dsimp only at h ⊢
          cases hrec : DeleteMinFuel n (node li lb ls ll lr) with
          | none => rw [hrec] at h; cases h
          | some res => rw [hrec] at h; rw [ih _ _ hrec]; exact h

variable [LinearOrder T]

theorem DeleteFuel_mono (x : T) (n : Nat) : ∀ (t : Node T) (r : Bool × Node T),
    DeleteFuel n t x = some r → DeleteFuel (n + 1) t x = some r := by
  induction n with
  | zero => intro t r h; simp [DeleteFuel] at h
  | succ n ih =>
    intro t r h
    rcases t with _ | ⟨i, b, s, l, rr⟩
    · simpa [DeleteFuel] using h
    · rw [DeleteFuel_succ_node] at h ⊢
      by_cases hlt : x < i
      · rw [if_pos hlt] at h ⊢
        generalize (if (!l.isNull && l.IsBlack && l.IsLeftBlack) = true then
          MoveRedLeft (node i b s l rr) else node i b s l rr) = n1 at h ⊢
        rcases n1 with _ | ⟨i1, b1, s1, l1, r1⟩
        · exact h
        · dsimp only at h ⊢
          cases hrec : DeleteFuel n l1 x with
          | none => rw [hrec] at h; cases h
          | some res => rw [hrec] at h; rw [ih _ _ hrec]; exact h
      · rw [if_neg hlt] at h ⊢
        generalize (if (node i b s l rr).IsLeftRed = true then RotateRight (node i b s l rr)
          else node i b s l rr) = n1 at h ⊢
        rcases n1 with _ | ⟨i1, b1, s1, l1, r1⟩
        · exact h
        · dsimp only at h ⊢
          by_cases hf : i1 = x ∧ r1.isNull = true
          · rw [if_pos hf] at h ⊢; exact h
          · rw [if_neg hf] at h ⊢
            generalize (if ((node i1 b1 s1 l1 r1).IsRightBlack && !r1.isNull && r1.IsLeftBlack)
              = true then MoveRedRight (node i1 b1 s1 l1 r1) else node i1 b1 s1 l1 r1) = n2
              at h ⊢
            rcases n2 with _ | ⟨i2, b2, s2, l2, r2⟩
            · exact h
            · dsimp only at h ⊢
              by_cases hi2 : i2 = x
              · rw [if_pos hi2] at h ⊢
                cases hrec : DeleteMinFuel n (setMinItem r2 x) with
                | none => rw [hrec] at h; cases h
                | some res => rw [hrec] at h; rw [DeleteMinFuel_mono _ _ _ hrec]; exact h
              · rw [if_neg hi2] at h ⊢
                cases hrec : DeleteFuel n r2 x with
                | none => rw [hrec] at h; cases h
                | some res => rw [hrec] at h; rw [ih _ _ hrec]; exact h

/-- The result of `Node::Delete` does not depend on the budget, once it suffices. -/
theorem DeleteFuel_of_le (x : T) (t : Node T) (r : Bool × Node T) (n m : Nat) (hnm : n ≤ m)
    (h : DeleteFuel n t x = some r) : DeleteFuel m t x = some r := by
  induction hnm with
  | refl => exact h
  | step _ ih => exact DeleteFuel_mono x _ t r ih

end Node
end RedBlackTree

namespace RedBlackTree
namespace Node

variable {T : Type}

/-! ### The deletion functions return on every node structure -/

theorem MoveRedRight_right (i : T) (b : Bool) (s : Nat) (l r : Node T) (hr : r ≠ null) :
    ∃ i2 b2 s2 l2 r2, MoveRedRight (node i b s l r) = node i2 b2 s2 l2 r2 ∧ r2 ≠ null := by
  by_cases hll : l.IsLeftRed = true
  · rcases l with _ | ⟨li, lb, ls, ll, lr⟩
    · simp at hll
    · rcases ll with _ | ⟨lli, llb, lls, lll, llr⟩
      · simp at hll
      · simp at hll; subst hll
        rw [MoveRedRight_rotate]
        exact ⟨_, _, _, _, _, rfl, by simp⟩
  · rw [MoveRedRight_switch _ _ _ _ _ (by simpa using hll)]
    refine ⟨_, _, _, _, _, rfl, ?_⟩
    rcases r with _ | ⟨ri, rb, rs, rl, rr⟩
    · exact absurd rfl hr
    · simp [flipBlack]

/-- `Node::DeleteMin` returns on every present node, once the budget covers the node count. -/
theorem DeleteMinFuel_total (fuel : Nat) : ∀ (t : Node T), t ≠ null → count t ≤ fuel →
    ∃ r, DeleteMinFuel fuel t = some r := by
  induction fuel with
  | zero =>
    intro t ht hf
    exact absurd (count_eq_zero.1 (Nat.le_zero.1 hf)) ht
  | succ fuel ih =>
    intro t ht hf
    rcases t with _ | ⟨i, b, s, l, r⟩
    · exact absurd rfl ht
    · rw [DeleteMinFuel_succ]
      have hcnt : count (if (!l.isNull && l.IsBlack && l.IsLeftBlack) = true then
          MoveRedLeft (node i b s l r) else node i b s l r) = count (node i b s l r) := by
        split <;> simp
      generalize (if (!l.isNull && l.IsBlack && l.IsLeftBlack) = true then
        MoveRedLeft (node i b s l r) else node i b s l r) = n1 at hcnt ⊢
      rcases n1 with _ | ⟨i1, b1, s1, l1, r1⟩
      · simp at hcnt; omega
      · rcases l1 with _ | ⟨li, lb, ls, ll, lr⟩
        · exact ⟨_, rfl⟩
        · obtain ⟨res, hres⟩ := ih (node li lb ls ll lr) (by simp) (by
            rw [count_node i1] at hcnt; omega)
          dsimp only
          rw [hres]
          exact ⟨_, rfl⟩

variable [LinearOrder T]

/-- `Node::Delete` returns on every node structure, once the budget exceeds the node count. -/
theorem DeleteFuel_total (x : T) (fuel : Nat) : ∀ (t : Node T), count t < fuel →
    ∃ r, DeleteFuel fuel t x = some r := by
  induction fuel with
  | zero => intro t hf; exact absurd hf (Nat.not_lt_zero _)
  | succ fuel ih =>
    intro t hf
    rcases t with _ | ⟨i, b, s, l, r⟩
    · exact ⟨_, rfl⟩
    · rw [DeleteFuel_succ_node]
      by_cases hlt : x < i
      · rw [if_pos hlt]
        have hcnt : count (if (!l.isNull && l.IsBlack && l.IsLeftBlack) = true then
            MoveRedLeft (node i b s l r) else node i b s l r) = count (node i b s l r) := by
          split <;> simp
        generalize (if (!l.isNull && l.IsBlack && l.IsLeftBlack) = true then
          MoveRedLeft (node i b s l r) else node i b s l r) = n1 at hcnt ⊢
        rcases n1 with _ | ⟨i1, b1, s1, l1, r1⟩
        · simp at hcnt; omega
        · obtain ⟨res, hres⟩ := ih l1 (by rw [count_node i1] at hcnt; omega)
          dsimp only
          rw [hres]
          exact ⟨_, rfl⟩
      · rw [if_neg hlt]
        have hcnt : count (if (node i b s l r).IsLeftRed = true then RotateRight (node i b s l r)
            else node i b s l r) = count (node i b s l r) := by
          split <;> simp
        generalize (if (node i b s l r).IsLeftRed = true then RotateRight (node i b s l r)
          else node i b s l r) = n1 at hcnt ⊢
        rcases n1 with _ | ⟨i1, b1, s1, l1, r1⟩
        · simp at hcnt; omega
        · dsimp only
          by_cases hf1 : i1 = x ∧ r1.isNull = true
          · rw [if_pos hf1]; exact ⟨_, rfl⟩
          · rw [if_neg hf1]
            by_cases hr1 : r1 = null
            · -- no right child and another item: nothing is found
              subst hr1
              have hi1 : i1 ≠ x := fun h => hf1 ⟨h, rfl⟩
              rw [if_neg (by simp)]
              dsimp only
              rw [if_neg hi1]
              obtain ⟨res, hres⟩ := ih null (by
                rw [count_node i1] at hcnt; simp only [count_null]; omega)
              rw [hres]
              exact ⟨_, rfl⟩
            · have hcnt2 : count (if ((node i1 b1 s1 l1 r1).IsRightBlack && !r1.isNull &&
                  r1.IsLeftBlack) = true then MoveRedRight (node i1 b1 s1 l1 r1)
                  else node i1 b1 s1 l1 r1) = count (node i1 b1 s1 l1 r1) := by
                split <;> simp
              have hright : ∃ i2 b2 s2 l2 r2, (if ((node i1 b1 s1 l1 r1).IsRightBlack &&
                  !r1.isNull && r1.IsLeftBlack) = true then MoveRedRight (node i1 b1 s1 l1 r1)
                  else node i1 b1 s1 l1 r1) = node i2 b2 s2 l2 r2 ∧ r2 ≠ null := by
                split
                · exact MoveRedRight_right i1 b1 s1 l1 r1 hr1
                · exact ⟨_, _, _, _, _, rfl, hr1⟩
              obtain ⟨i2, b2, s2, l2, r2, hn2, hr2⟩ := hright
              rw [hn2] at hcnt2 ⊢
              rw [count_node i2] at hcnt2
              dsimp only
              by_cases hi2 : i2 = x
              · rw [if_pos hi2]
                obtain ⟨res, hres⟩ := DeleteMinFuel_total fuel (setMinItem r2 x)
                  (setMinItem_ne_null x hr2) (by rw [count_setMinItem]; omega)
                rw [hres]
                exact ⟨_, rfl⟩
              · rw [if_neg hi2]
                obtain ⟨res, hres⟩ := ih r2 (by omega)
                rw [hres]
                exact ⟨_, rfl⟩

/-- `Node::Delete` returns on every node structure. -/
theorem Delete_total (x : T) (t : Node T) : ∃ r, Node.Delete t x = some r :=
  DeleteFuel_total x (count t + 1) t (Nat.lt_succ_self _)

end Node
end RedBlackTree

namespace RedBlackTree
namespace Node

variable {T : Type}

/-! ### The shape conditions in terms of `invc`, `invc2` and `invh` -/

theorem invc_iff (t : Node T) : invc t ↔ NoRedRight t ∧ NoRedRed t := by
  induction t with
  | null => simp [NoRedRight, NoRedRed]
  | node i b s l r ihl ihr =>
    simp only [invc_node, NoRedRight, NoRedRed, ihl, ihr]
    constructor
    · rintro ⟨h1, h2, ⟨h3, h4⟩, h5, h6⟩
      exact ⟨⟨h1, h3, h5⟩, fun hb => ⟨h2 hb, h1⟩, h4, h6⟩
    · rintro ⟨⟨h1, h3, h5⟩, h2, h4, h6⟩
      exact ⟨h1, fun hb => (h2 hb).1, ⟨h3, h4⟩, h5, h6⟩

theorem invc2_iff (t : Node T) : invc2 t ↔ NoRedRight t ∧ NoRedRedBelowRoot t := by
  cases t with
  | null => simp [NoRedRight, NoRedRedBelowRoot]
  | node i b s l r =>
    simp only [invc2_node, NoRedRight, NoRedRedBelowRoot, invc_iff]
    constructor
    · rintro ⟨h1, ⟨h3, h4⟩, h5, h6⟩
      exact ⟨⟨h1, h3, h5⟩, h4, h6⟩
    · rintro ⟨⟨h1, h3, h5⟩, h4, h6⟩
      exact ⟨h1, ⟨h3, h4⟩, h5, h6⟩

theorem bheight_mem_pathBlacks (t : Node T) : bheight t ∈ pathBlacks t := by
  induction t with
  | null => simp [pathBlacks]
  | node i b s l r ihl _ =>
    simp only [pathBlacks, bheight_node, List.mem_map, List.mem_append]
    exact ⟨bheight l, Or.inl ihl, rfl⟩

theorem pathBlacks_of_invh (t : Node T) (h : invh t) : ∀ a ∈ pathBlacks t, a = bheight t := by
  induction t with
  | null => intro a ha; simpa [pathBlacks] using ha
  | node i b s l r ihl ihr =>
    simp only [invh_node] at h
    obtain ⟨h1, h2, h3⟩ := h
    intro a ha
    simp only [pathBlacks, List.mem_map, List.mem_append] at ha
    obtain ⟨k, hk | hk, rfl⟩ := ha
    · rw [ihl h2 k hk]; rfl
    · rw [ihr h3 k hk, ← h1]; rfl

theorem invh_iff (t : Node T) : invh t ↔ BlackBalanced t := by
  constructor
  · intro h a ha c hc
    rw [pathBlacks_of_invh t h a ha, pathBlacks_of_invh t h c hc]
  · induction t with
    | null => intro _; trivial
    | node i b s l r ihl ihr =>
      intro h
      have key : ∀ a ∈ pathBlacks l ++ pathBlacks r, ∀ c ∈ pathBlacks l ++ pathBlacks r,
          a = c := by
        intro a ha c hc
        have := h (a + boolSz b) (List.mem_map.2 ⟨a, ha, rfl⟩) (c + boolSz b)
          (List.mem_map.2 ⟨c, hc, rfl⟩)
        omega
      simp only [invh_node]
      refine ⟨?_, ihl ?_, ihr ?_⟩
      · exact key _ (List.mem_append_left _ (bheight_mem_pathBlacks l)) _
          (List.mem_append_right _ (bheight_mem_pathBlacks r))
      · intro a ha c hc
        exact key a (List.mem_append_left _ ha) c (List.mem_append_left _ hc)
      · intro a ha c hc
        exact key a (List.mem_append_right _ ha) c (List.mem_append_right _ hc)

theorem LLRB_iff (t : Node T) : LLRB t ↔ invc2 t ∧ invh t := by
  unfold LLRB
  rw [invc2_iff, invh_iff]
  exact and_assoc.symm

/-! ### Queries -/

/-- `Node::At` returns the element at the given position of the in-order traversal. -/
theorem At_eq {T : Type} [Inhabited T] (t : Node T) (hz : Sized t) (hc : count t < 2 ^ 64) :
    ∀ k, k < count t → (toList t)[k]? = some (At t k) := by
  induction t with
  | null => intro k hk; simp at hk
  | node i b s l r ihl ihr =>
    intro k hk
    rw [Sized_node] at hz
    obtain ⟨hs, hzl, hzr⟩ := hz
    rw [count_node] at hc hk
    unfold At
    by_cases h1 : s = k
    · rw [if_pos h1, toList_node, List.getElem?_append_right (by simp; omega)]
      simp [← h1, hs]
    · rw [if_neg h1]
      by_cases h2 : k < s
      · rw [if_pos h2, toList_node, List.getElem?_append_left (by simp; omega)]
        exact ihl hzl (by omega) k (by omega)
      · rw [if_neg h2, toList_node, List.getElem?_append_right (by simp; omega)]
        rw [addSz_of_lt (by omega), subSz_of_le (by omega) (by omega)]
        have hk2 : k - (toList l).length = (k - (s + 1)) + 1 := by
          simp; omega
        rw [hk2, List.getElem?_cons_succ]
        exact ihr hzr (by omega) (k - (s + 1)) (by omega)

section Query
variable [LinearOrder T]

/-- `Node::Contains` decides membership in a sorted subtree. -/
theorem Contains_iff (x : T) (t : Node T) (hs : (toList t).Sorted (· < ·)) :
    Contains t x = true ↔ x ∈ toList t := by
  induction t with
  | null => simp [Contains]
  | node i b s l r ihl ihr =>
    obtain ⟨hsl, hsr, h3, h4⟩ := sorted_node (by simpa using hs)
    unfold Contains
    by_cases hi : x = i
    · simp [hi]
    · simp only [hi, if_false]
      by_cases hlt : x < i
      · simp only [hlt, if_true, toList_node, List.mem_append, List.mem_cons, hi, false_or]
        rw [ihl hsl]
        exact ⟨Or.inl, fun h => h.elim id (fun h => absurd (h4 x h) (lt_asymm hlt))⟩
      · simp only [hlt, if_false, toList_node, List.mem_append, List.mem_cons, hi, false_or]
        rw [ihr hsr]
        exact ⟨Or.inr, fun h => h.elim (fun h => absurd (h3 x h) hlt) id⟩

/-- The value returned by `Node::Find` for an absent item is the placeholder. -/
theorem Find_snd_of_not_mem [Inhabited T] (x : T) (t : Node T) (hs : (toList t).Sorted (· < ·))
    (hx : x ∉ toList t) : (Find t x).2 = default := by
  induction t with
  | null => rfl
  | node i b s l r ihl ihr =>
    obtain ⟨hsl, hsr, _, _⟩ := sorted_node (by simpa using hs)
    simp only [toList_node, List.mem_append, List.mem_cons, not_or] at hx
    unfold Find
    rw [if_neg hx.2.1]
    by_cases hlt : x < i
    · rw [if_pos hlt]; exact ihl hsl hx.1
    · rw [if_neg hlt]; exact ihr hsr hx.2.2

end Query

end Node
end RedBlackTree

namespace RedBlackTree

variable {T : Type} [LinearOrder T]

open Node

theorem ins_of_mem {x : T} {L : List T} (hs : L.Sorted (· < ·)) (hx : x ∈ L) :
    L.filter (fun y => decide (y < x)) ++ x :: L.filter (fun y => decide (x < y)) = L := by
  induction L with
  | nil => simp at hx
  | cons a L ih =>
    have hs2 := List.sorted_cons.1 hs
    by_cases ha : a = x
    · subst ha
      obtain ⟨e1, e2⟩ := filter_lt_of_forall_gt hs2.1
      simp [List.filter_cons, e1, e2]
    · have hx2 : x ∈ L := by
        rcases List.mem_cons.1 hx with h | h
        · exact absurd h.symm ha
        · exact h
      have hax : a < x := hs2.1 x hx2
      have := ih hs2.2 hx2
      simp only [List.filter_cons, hax, decide_True, if_true, not_lt_of_lt hax, decide_False,
        List.cons_append]
      simp only [Bool.false_eq_true, if_false]
      rw [this]

theorem WF_empty : WF (RedBlackTree.empty : RedBlackTree T) where
  sorted := List.sorted_nil
  llrb := (LLRB_iff _).2 ⟨trivial, trivial⟩
  sized := trivial
  size_eq := rfl
  bound := by simp [RedBlackTree.empty]

/-- `Insert` on a well formed state: it returns, and what it returns. -/
theorem Insert_spec (t : RedBlackTree T) (x : T) (h : WF t) :
    ∃ b t1, t.Insert x = some (b, t1) ∧
      toList t1.m_root = (toList t.m_root).filter (fun y => decide (y < x)) ++
        x :: (toList t.m_root).filter (fun y => decide (x < y)) ∧
      (b = true ↔ x ∉ toList t.m_root) ∧ LLRB t1.m_root ∧
      count t1.m_root = count t.m_root + boolSz b ∧
      (b = true → t1.m_treeSize = addSz t.m_treeSize 1) ∧
      (b = false → t1.m_treeSize = t.m_treeSize) ∧
      (count t.m_root + 1 < 2 ^ 64 → Sized t1.m_root) := by
  obtain ⟨hs, hl, hz, he, hb⟩ := h
  by_cases h0 : t.m_treeSize = 0
  · have hroot : t.m_root = null := count_eq_zero.1 (he ▸ h0)
    refine ⟨true, ⟨node x false 0 null null, 1⟩, by simp [Insert, Empty, h0], ?_⟩
    simp only [hroot, h0]
    refine ⟨by simp, by simp, ?_, by simp, ?_, by simp, ?_⟩
    · rw [LLRB_iff]; simp
    · intro _; rfl
    · intro _; simp
  · have hroot : t.m_root ≠ null := fun hn => h0 (by rw [he, hn]; rfl)
    have hcs := Insert_shape x t.m_root ((LLRB_iff _).1 hl).1 ((LLRB_iff _).1 hl).2
    have hlist := toList_Insert x t.m_root hroot hs
    have hfst := Insert_fst x t.m_root hroot hs
    have hcnt := count_Insert x t.m_root hroot
    have hsz := Sized_Insert x t.m_root hz
    have he0 : t.Empty = false := by simp [Empty, h0]
    rcases hr : t.m_root with _ | ⟨i, b, s, l, r⟩
    · exact absurd hr hroot
    · rw [hr] at hcs hlist hfst hcnt hsz
      cases hins : (Node.Insert (node i b s l r) x).1
      · refine ⟨false, ⟨(Node.Insert (node i b s l r) x).2, t.m_treeSize⟩, ?_, hlist,
          ?_, (LLRB_iff _).2 ⟨hcs.1, hcs.2.1⟩, ?_, ?_, ?_, hsz⟩
        · simp [Insert, he0, hr, hins]
        · rw [← hfst, hins]
        · rw [hcnt, hins]
        · intro h; cases h
        · intro _; rfl
      · refine ⟨true, ⟨(Node.Insert (node i b s l r) x).2, addSz t.m_treeSize 1⟩, ?_, hlist,
          ?_, (LLRB_iff _).2 ⟨hcs.1, hcs.2.1⟩, ?_, ?_, ?_, hsz⟩
        · simp [Insert, he0, hr, hins]
        · rw [← hfst, hins]
        · rw [hcnt, hins]
        · intro _; rfl
        · intro h; cases h

theorem WF_Insert (t : RedBlackTree T) (x : T) (r : Bool × RedBlackTree T) (h : WF t)
    (hcap : count t.m_root + 1 < 2 ^ 64) (hr : t.Insert x = some r) : WF r.2 := by
  obtain ⟨b, t1, h1, h2, h3, h4, h5, h6, h7, h8⟩ := Insert_spec t x h
  rw [h1] at hr
  cases hr
  have hb := boolSz_le b
  refine ⟨?_, h4, h8 hcap, ?_, by simp only []; omega⟩
  · simp only []; rw [h2]; exact sorted_ins h.sorted
  · simp only []
    cases b
    · rw [h7 rfl, h5, h.size_eq]; rfl
    · rw [h6 rfl, h5, h.size_eq, addSz_of_lt hcap]; rfl

/-- `Delete` on a well formed state: it returns, and what it returns. -/
theorem Delete_spec (t : RedBlackTree T) (x : T) (h : WF t) :
    ∃ d t1, t.Delete x = some (d, t1) ∧
      toList t1.m_root = (toList t.m_root).filter (fun y => decide (y ≠ x)) ∧
      (d = true ↔ x ∈ toList t.m_root) ∧
      t1.m_treeSize + boolSz d = t.m_treeSize ∧ WF t1 := by
  obtain ⟨hs, hl, hz, he, hb⟩ := h
  obtain ⟨d, t1, h1, h2, h3, h4, h5, h6⟩ := DeleteFuel_spec x (count t.m_root + 1) t.m_root
    (Nat.lt_succ_self _) hs ((LLRB_iff _).1 hl).2 (Or.inl ((LLRB_iff _).1 hl).1)
  have hbd := boolSz_le d
  have hsub : subSz t.m_treeSize (boolSz d) = count t1 := by
    rw [he, subSz_of_le (by omega) hb]; omega
  refine ⟨d, ⟨t1, subSz t.m_treeSize (boolSz d)⟩, ?_, h3, h4, ?_, ?_, ?_, ?_, ?_, ?_⟩
  · simp [Delete, Node.Delete, h1]
  · simp only []; rw [hsub, he]; exact h5
  · simp only []; rw [h3]; exact List.Sorted.filter _ hs
  · exact (LLRB_iff _).2 ⟨h2.1, h2.2.1⟩
  · exact h6 hz hb
  · exact hsub
  · simp only []; omega

theorem WF_Delete (t : RedBlackTree T) (x : T) (r : Bool × RedBlackTree T) (h : WF t)
    (hr : t.Delete x = some r) : WF r.2 := by
  obtain ⟨d, t1, h1, _, _, _, h5⟩ := Delete_spec t x h
  rw [h1] at hr
  cases hr
  exact h5

/-- Every reachable state is well formed. -/
theorem Reachable.wf {t : RedBlackTree T} (h : Reachable t) : WF t := by
  induction h with
  | empty => exact WF_empty
  | insert t x r _ hcap hr ih => exact WF_Insert t x r ih hcap hr
  | delete t x r _ hr ih => exact WF_Delete t x r ih hr

end RedBlackTree

namespace RedBlackTree

variable {T : Type} [LinearOrder T]

open Node

theorem filter_ne_eq_erase {x : T} {L : List T} (hs : L.Sorted (· < ·)) :
    L.filter (fun y => decide (y ≠ x)) = L.erase x := by
  rw [List.Nodup.erase_eq_filter hs.nodup]
  congr 1
  funext y
  by_cases h : y = x <;> simp [h]

theorem Reachable.insertList {t : RedBlackTree T} (xs : List T) (h : Reachable t)
    (hcap : count t.m_root + xs.length < 2 ^ 64) : Reachable (insertList t xs) := by
  induction xs generalizing t with
  | nil => exact h
  | cons x xs ih =>
    obtain ⟨b, t1, h1, _, _, _, h5, _⟩ := Insert_spec t x h.wf
    simp only [List.length_cons] at hcap
    have hb := boolSz_le b
    have hr : Reachable t1 := Reachable.insert t x (b, t1) h (by omega) h1
    unfold RedBlackTree.insertList
    rw [h1]
    exact ih hr (by show count t1.m_root + xs.length < 2 ^ 64; omega)

/-- C1: after `Insert(x)` on a reachable tree the in-order traversal is strictly increasing and
consists of exactly the items stored before together with `x`. -/
theorem insert_inorder (t : RedBlackTree T) (x : T) (h : Reachable t) :
    ∃ b t1, t.Insert x = some (b, t1) ∧ (toList t1.m_root).Sorted (· < ·) ∧
      ∀ y, y ∈ toList t1.m_root ↔ y ∈ toList t.m_root ∨ y = x := by
  obtain ⟨b, t1, h1, h2, _⟩ := Insert_spec t x h.wf
  refine ⟨b, t1, h1, ?_, ?_⟩
  · rw [h2]; exact sorted_ins h.wf.sorted
  · intro y; rw [h2]; exact mem_ins

/-- C1 on the tree built by `Insert(5)`, `Insert(3)`, with the new item 8. -/
theorem insert_inorder_witness :
    ∃ b t1, (insertList (empty : RedBlackTree Nat) [5, 3]).Insert 8 = some (b, t1) ∧
      (toList t1.m_root).Sorted (· < ·) ∧
      ∀ y, y ∈ toList t1.m_root ↔
        y ∈ toList (insertList (empty : RedBlackTree Nat) [5, 3]).m_root ∨ y = 8 :=
  insert_inorder _ 8 (Reachable.insertList _ Reachable.empty (by decide))

/-- C2: `Delete(x)` of a stored item returns true, decreases `Size()` by one, and leaves the
previous in-order traversal without `x`. -/
theorem delete_stored (t : RedBlackTree T) (x : T) (h : Reachable t)
    (hx : x ∈ toList t.m_root) :
    ∃ t1, t.Delete x = some (true, t1) ∧ t1.Size + 1 = t.Size ∧ t1.Contains x = false ∧
      toList t1.m_root = (toList t.m_root).erase x ∧ (toList t1.m_root).Sorted (· < ·) := by
  obtain ⟨d, t1, h1, h2, h3, h4, h5⟩ := Delete_spec t x h.wf
  have hd : d = true := h3.2 hx
  subst hd
  refine ⟨t1, h1, h4, ?_, ?_, h5.sorted⟩
  · have : ¬ (t1.Contains x = true) := by
      unfold Contains
      rw [Contains_iff x _ h5.sorted, h2]
      simp
    simpa using this
  · rw [h2]; exact filter_ne_eq_erase h.wf.sorted

/-- C2 on the tree built by inserting 5, 3, 8, 1, 4: `Delete(3)` returns true and leaves
`Contains(3) == false`, `Size() == 4` and the in-order traversal 1, 4, 5, 8. -/
theorem delete_stored_witness :
    (∃ t1, (insertList (empty : RedBlackTree Nat) [5, 3, 8, 1, 4]).Delete 3 = some (true, t1) ∧
      t1.Size + 1 = (insertList (empty : RedBlackTree Nat) [5, 3, 8, 1, 4]).Size ∧
      t1.Contains 3 = false ∧
      toList t1.m_root =
        (toList (insertList (empty : RedBlackTree Nat) [5, 3, 8, 1, 4]).m_root).erase 3 ∧
      (toList t1.m_root).Sorted (· < ·)) ∧
    ((insertList (empty : RedBlackTree Nat) [5, 3, 8, 1, 4]).Delete 3).map
      (fun r => (r.1, r.2.Size, r.2.Contains 3, toList r.2.m_root)) =
      some (true, 4, false, [1, 4, 5, 8]) :=
  ⟨delete_stored _ 3 (Reachable.insertList _ Reachable.empty (by decide)) (by decide),
    by decide⟩

end RedBlackTree

namespace RedBlackTree

variable {T : Type} [LinearOrder T]

open Node

/-- Content of the tree after a run of `Insert` calls. -/
theorem toList_insertList {t : RedBlackTree T} (xs : List T) (h : Reachable t)
    (hcap : count t.m_root + xs.length < 2 ^ 64) (y : T) :
    y ∈ toList (insertList t xs).m_root ↔ y ∈ toList t.m_root ∨ y ∈ xs := by
  induction xs generalizing t with
  | nil => simp [insertList]
  | cons x xs ih =>
    obtain ⟨b, t1, h1, h2, _, _, h5, _⟩ := Insert_spec t x h.wf
    simp only [List.length_cons] at hcap
    have hb := boolSz_le b
    have hr : Reachable t1 := Reachable.insert t x (b, t1) h (by omega) h1
    unfold insertList
    rw [h1]
    show y ∈ toList (insertList t1 xs).m_root ↔ _
    rw [ih hr (by omega), h2, mem_ins, List.mem_cons, or_assoc]

/-- Inserting a strictly increasing or any other duplicate-free list into the empty tree: the
in-order traversal is the sorted list of the items. -/
theorem toList_insertList_empty (xs ys : List T) (hcap : xs.length < 2 ^ 64)
    (hys : ys.Sorted (· < ·)) (hmem : ∀ y, y ∈ ys ↔ y ∈ xs) :
    toList (insertList (empty : RedBlackTree T) xs).m_root = ys := by
  have hr : Reachable (insertList (empty : RedBlackTree T) xs) :=
    Reachable.insertList xs Reachable.empty (by simpa [empty] using hcap)
  apply List.eq_of_perm_of_sorted _ hr.wf.sorted hys
  rw [List.perm_ext_iff_of_nodup hr.wf.sorted.nodup hys.nodup]
  intro y
  rw [toList_insertList xs Reachable.empty (by simpa [empty] using hcap), hmem]
  simp [empty]

theorem Reachable.deleteList {t : RedBlackTree T} (xs : List T) (h : Reachable t) :
    Reachable (deleteList t xs) := by
  induction xs generalizing t with
  | nil => exact h
  | cons x xs ih =>
    obtain ⟨d, t1, h1, _⟩ := Delete_spec t x h.wf
    unfold RedBlackTree.deleteList
    rw [h1]
    exact ih (Reachable.delete t x (d, t1) h h1)

/-- Content of the tree after a run of `Delete` calls. -/
theorem toList_deleteList {t : RedBlackTree T} (xs : List T) (h : Reachable t) :
    toList (deleteList t xs).m_root = (toList t.m_root).filter (fun y => decide (y ∉ xs)) := by
  induction xs generalizing t with
  | nil => simp [deleteList]
  | cons x xs ih =>
    obtain ⟨d, t1, h1, h2, _⟩ := Delete_spec t x h.wf
    unfold deleteList
    rw [h1]
    show toList (deleteList t1 xs).m_root = _
    rw [ih (Reachable.delete t x (d, t1) h h1), h2, List.filter_filter]
    congr 1
    funext y
    by_cases hy : y = x <;> simp [hy]

theorem Reachable.size_eq_length {t : RedBlackTree T} (h : Reachable t) :
    t.Size = (toList t.m_root).length := by
  unfold Size
  rw [h.wf.size_eq, length_toList]

variable [Inhabited T]

/-- C3: for every index below `Size()`, `At(i)` is the element at position `i` of the in-order
traversal, which is strictly increasing: the (i+1)-th smallest stored item. -/
theorem at_inorder (t : RedBlackTree T) (i : Nat) (h : Reachable t) (hi : i < t.Size) :
    (toList t.m_root).Sorted (· < ·) ∧ (toList t.m_root)[i]? = some (t.At i) := by
  have hw := h.wf
  exact ⟨hw.sorted, At_eq t.m_root hw.sized hw.bound i (by rw [← hw.size_eq]; exact hi)⟩

theorem toList_range_tree :
    toList (insertList (empty : RedBlackTree Nat) (List.range' 1 1000)).m_root =
      List.range' 1 1000 :=
  toList_insertList_empty _ _ (by rw [List.length_range']; norm_num) (by
    unfold List.Sorted
    exact List.pairwise_lt_range' 1 1000) (fun _ => Iff.rfl)

theorem reachable_range_tree :
    Reachable (insertList (empty : RedBlackTree Nat) (List.range' 1 1000)) :=
  Reachable.insertList _ Reachable.empty (by
    rw [List.length_range']; simp only [empty, count_null]; norm_num)

theorem size_range_tree :
    (insertList (empty : RedBlackTree Nat) (List.range' 1 1000)).Size = 1000 := by
  rw [reachable_range_tree.size_eq_length, toList_range_tree, List.length_range']

/-- C3 on the tree built by inserting 1..1000 in ascending order: `Size() == 1000`,
`At(0) == 1` and `At(999) == 1000`. -/
theorem at_inorder_witness :
    (insertList (empty : RedBlackTree Nat) (List.range' 1 1000)).Size = 1000 ∧
    (insertList (empty : RedBlackTree Nat) (List.range' 1 1000)).At 0 = 1 ∧
    (insertList (empty : RedBlackTree Nat) (List.range' 1 1000)).At 999 = 1000 := by
  have h0 := (at_inorder _ 0 reachable_range_tree (by rw [size_range_tree]; norm_num)).2
  have h1 := (at_inorder _ 999 reachable_range_tree (by rw [size_range_tree]; norm_num)).2
  rw [toList_range_tree] at h0 h1
  rw [List.getElem?_range' 1 1 (by norm_num : 0 < 1000)] at h0
  rw [List.getElem?_range' 1 1 (by norm_num : 999 < 1000)] at h1
  exact ⟨size_range_tree, (Option.some.inj h0).symm, (Option.some.inj h1).symm⟩

end RedBlackTree

namespace RedBlackTree

open Node

variable {T : Type} [LinearOrder T]

/-- C4: after `Insert(1)`, `Insert(2)`, `Insert(3)` the item at index 2 is 3, but `Find(3)`
returns rank 1: the rank `Find` returns is not the index that `At` resolves. -/
theorem find_rank_of_at_diverges :
    (insertList (empty : RedBlackTree Nat) [1, 2, 3]).Size = 3 ∧
    (insertList (empty : RedBlackTree Nat) [1, 2, 3]).At 2 = 3 ∧
    ((insertList (empty : RedBlackTree Nat) [1, 2, 3]).Find
      ((insertList (empty : RedBlackTree Nat) [1, 2, 3]).At 2)).1 = 1 := by
  decide

theorem Insert_ne_null (x : T) (t : Node T) (ht : t ≠ null) : (Node.Insert t x).2 ≠ null := by
  intro h
  have := count_Insert x t ht
  rw [h] at this
  have h2 : count t ≠ 0 := fun h0 => ht (count_eq_zero.1 h0)
  simp at this
  omega

/-- Insertion started in a state whose root is present or whose size is zero. -/
theorem Insert_total (t : RedBlackTree T) (x : T) (hs : t.m_treeSize = 0 ∨ t.m_root ≠ null) :
    ∃ r, t.Insert x = some r ∧ r.2.m_root ≠ null := by
  by_cases h0 : t.m_treeSize = 0
  · exact ⟨(true, ⟨node x false 0 null null, 1⟩), by simp [Insert, Empty, h0], by simp⟩
  · have hroot : t.m_root ≠ null := hs.resolve_left h0
    have he0 : t.Empty = false := by simp [Empty, h0]
    have hne := Insert_ne_null x t.m_root hroot
    rcases hr : t.m_root with _ | ⟨i, b, s, l, r⟩
    · exact absurd hr hroot
    · rw [hr] at hne
      cases hins : (Node.Insert (node i b s l r) x).1
      · exact ⟨(false, ⟨(Node.Insert (node i b s l r) x).2, t.m_treeSize⟩),
          by simp [Insert, he0, hr, hins], hne⟩
      · exact ⟨(true, ⟨(Node.Insert (node i b s l r) x).2, addSz t.m_treeSize 1⟩),
          by simp [Insert, he0, hr, hins], hne⟩

/-- Shape of the result of `Insert`, whenever it returns. -/
theorem LLRB_Insert (t : RedBlackTree T) (x : T) (h : LLRB t.m_root)
    (r : Bool × RedBlackTree T) (hr : t.Insert x = some r) : LLRB r.2.m_root := by
  have hcs := Insert_shape x t.m_root ((LLRB_iff _).1 h).1 ((LLRB_iff _).1 h).2
  have hres : LLRB (Node.Insert t.m_root x).2 := (LLRB_iff _).2 ⟨hcs.1, hcs.2.1⟩
  unfold Insert at hr
  by_cases he : t.Empty = true
  · rw [if_pos he] at hr
    cases hr
    rw [LLRB_iff]; simp
  · rw [if_neg he] at hr
    rcases hroot : t.m_root with _ | ⟨i, b, s, l, rr⟩
    · rw [hroot] at hr; cases hr
    · rw [hroot] at hr hres
      simp only [] at hr
      split at hr <;> cases hr <;> exact hres

theorem LLRB_insertList (xs : List T) (t : RedBlackTree T) (h : LLRB t.m_root) :
    LLRB (insertList t xs).m_root := by
  induction xs generalizing t with
  | nil => exact h
  | cons x xs ih =>
    unfold insertList
    cases hr : t.Insert x with
    | none => exact h
    | some r => exact ih r.2 (LLRB_Insert t x h r hr)

/-- C5: `Insert` preserves the three shape and balance conditions (no red right child, no red
node other than the root with a red child, equal black counts on all paths); it returns whenever
the root is present or the size is zero; the empty tree satisfies the conditions, and so does the
tree after every run of insertions. -/
theorem insert_preserves_llrb (t : RedBlackTree T) (x : T) (h : LLRB t.m_root) :
    (∀ r, t.Insert x = some r → LLRB r.2.m_root) ∧
    ((t.m_treeSize = 0 ∨ t.m_root ≠ null) → ∃ r, t.Insert x = some r) ∧
    LLRB (empty : RedBlackTree T).m_root ∧
    ∀ xs, LLRB (insertList (empty : RedBlackTree T) xs).m_root := by
  have he : LLRB (empty : RedBlackTree T).m_root := (LLRB_iff _).2 ⟨trivial, trivial⟩
  refine ⟨fun r hr => LLRB_Insert t x h r hr, fun hs => ?_, he, fun xs => LLRB_insertList xs _ he⟩
  obtain ⟨r, hr, _⟩ := Insert_total t x hs
  exact ⟨r, hr⟩

theorem LLRB_unorderedTree : LLRB unorderedTree.m_root := by
  decide

/-- C5 on the tree built by `Insert(1)`, `Insert(2)`, whose root and left child are both red. -/
theorem insert_preserves_llrb_witness :
    LLRB (insertList (empty : RedBlackTree Nat) [1, 2]).m_root ∧
    ((∀ r, (insertList (empty : RedBlackTree Nat) [1, 2]).Insert 3 = some r →
      LLRB r.2.m_root) ∧
    (((insertList (empty : RedBlackTree Nat) [1, 2]).m_treeSize = 0 ∨
        (insertList (empty : RedBlackTree Nat) [1, 2]).m_root ≠ null) →
      ∃ r, (insertList (empty : RedBlackTree Nat) [1, 2]).Insert 3 = some r) ∧
    LLRB (empty : RedBlackTree Nat).m_root ∧
    ∀ xs, LLRB (insertList (empty : RedBlackTree Nat) xs).m_root) :=
  ⟨by decide, insert_preserves_llrb _ 3 (by decide)⟩

/-- Remark on `Node::Delete` outside the states of the object: `unorderedTree` satisfies the three
shape and balance conditions but is no search tree, and `Delete(2)` turns it into a tree whose
paths hold different numbers of black nodes. `Delete` chooses by item comparisons which subtree
to restructure, so `LLRB_Delete` below needs the search-tree order. -/
theorem delete_unordered_breaks_balance :
    LLRB unorderedTree.m_root ∧
    ∃ r, unorderedTree.Delete 2 = some r ∧ ¬ LLRB r.2.m_root := by
  refine ⟨LLRB_unorderedTree, _, rfl, ?_⟩
  decide

/-- No sequence of `Insert` and `Delete` calls builds `unorderedTree`: the node type and the root
are private members, and every reachable tree is a search tree. -/
theorem not_reachable_unorderedTree : ¬ Reachable unorderedTree := by
  intro h
  have hs := h.wf.sorted
  revert hs
  decide

/-- On a search tree (strictly increasing in-order traversal) `Delete` returns and preserves the
three shape and balance conditions, whether the item is stored or not. -/
theorem LLRB_Delete (t : RedBlackTree T) (x : T)
    (hs : (toList t.m_root).Sorted (· < ·)) (h : LLRB t.m_root) :
    ∃ r, t.Delete x = some r ∧ LLRB r.2.m_root := by
  obtain ⟨d, t1, h1, h2, _⟩ := DeleteFuel_spec x (count t.m_root + 1) t.m_root
    (Nat.lt_succ_self _) hs ((LLRB_iff _).1 h).2 (Or.inl ((LLRB_iff _).1 h).1)
  refine ⟨(d, ⟨t1, subSz t.m_treeSize (boolSz d)⟩), by simp [Delete, Node.Delete, h1], ?_⟩
  exact (LLRB_iff _).2 ⟨h2.1, h2.2.1⟩

/-- C6: if a tree that `Insert` and `Delete` calls have built satisfies (a) no node has a red
right child, (b) no red node other than the root has a red child and (c) every path from the
root to an absent child contains the same number of black nodes, then for every item, stored or
not, `Delete` returns and the tree after it satisfies (a), (b) and (c) as well, and is again
such a tree. -/
theorem delete_preserves_llrb (t : RedBlackTree T) (x : T) (h : Reachable t)
    (hl : LLRB t.m_root) :
    ∃ r, t.Delete x = some r ∧ LLRB r.2.m_root ∧ Reachable r.2 := by
  obtain ⟨r, hr, hllrb⟩ := LLRB_Delete t x h.wf.sorted hl
  exact ⟨r, hr, hllrb, Reachable.delete t x r h hr⟩

/-- C6 on the tree built by inserting 5, 3, 8, 1, 4, with the stored item 8. -/
theorem delete_preserves_llrb_witness :
    LLRB (insertList (empty : RedBlackTree Nat) [5, 3, 8, 1, 4]).m_root ∧
    ∃ r, (insertList (empty : RedBlackTree Nat) [5, 3, 8, 1, 4]).Delete 8 = some r ∧
      LLRB r.2.m_root ∧ Reachable r.2 :=
  ⟨by decide,
    delete_preserves_llrb _ 8 (Reachable.insertList _ Reachable.empty (by decide)) (by decide)⟩

end RedBlackTree

namespace RedBlackTree

variable {T : Type} [LinearOrder T]

open Node

/-- C7: in every reachable tree the `LeftSize` of every node is the number of nodes of its left
subtree. -/
theorem reachable_sized (t : RedBlackTree T) (h : Reachable t) : Sized t.m_root :=
  h.wf.sized

/-- C7 on the tree built by inserting 5, 3, 8, 1, 4. -/
theorem reachable_sized_witness :
    Sized (insertList (empty : RedBlackTree Nat) [5, 3, 8, 1, 4]).m_root :=
  reachable_sized _ (Reachable.insertList _ Reachable.empty (by decide))

/-- C8: on a reachable tree below the capacity of `size_t`, `Insert(x)` returns true exactly
when `x` was not stored; then `Size()` grows by one; otherwise `Size()` and the stored items are
unchanged; and an immediately repeated `Insert(x)` returns false. -/
theorem insert_flag (t : RedBlackTree T) (x : T) (h : Reachable t)
    (hcap : t.Size + 1 < 2 ^ 64) :
    ∃ b t1, t.Insert x = some (b, t1) ∧ (b = true ↔ x ∉ toList t.m_root) ∧
      (b = true → t1.Size = t.Size + 1) ∧
      (b = false → t1.Size = t.Size ∧ toList t1.m_root = toList t.m_root) ∧
      ∃ t2, t1.Insert x = some (false, t2) := by
  have hw := h.wf
  have hcap2 : count t.m_root + 1 < 2 ^ 64 := by
    rw [← hw.size_eq]; exact hcap
  obtain ⟨b, t1, h1, h2, h3, _, _, h6, h7, _⟩ := Insert_spec t x hw
  have hw1 : WF t1 := WF_Insert t x (b, t1) hw hcap2 h1
  refine ⟨b, t1, h1, h3, ?_, ?_, ?_⟩
  · intro hb
    unfold Size at hcap ⊢
    rw [h6 hb, addSz_of_lt hcap]
  · intro hb
    refine ⟨h7 hb, ?_⟩
    have hx : x ∈ toList t.m_root := by
      by_contra hx
      have := h3.2 hx
      rw [hb] at this
      cases this
    rw [h2, ins_of_mem hw.sorted hx]
  · obtain ⟨b2, t2, k1, _, k3, _⟩ := Insert_spec t1 x hw1
    have hx1 : x ∈ toList t1.m_root := by rw [h2]; exact mem_ins.2 (Or.inr rfl)
    have hb2 : b2 = false := by
      cases b2
      · rfl
      · exact absurd hx1 (k3.1 rfl)
    subst hb2
    exact ⟨t2, k1⟩

/-- C8 on the fresh tree with item 7: the first `Insert(7)` returns true, the repeated one
false. -/
theorem insert_flag_witness :
    (∃ b t1, (empty : RedBlackTree Nat).Insert 7 = some (b, t1) ∧
      (b = true ↔ 7 ∉ toList (empty : RedBlackTree Nat).m_root) ∧
      (b = true → t1.Size = (empty : RedBlackTree Nat).Size + 1) ∧
      (b = false → t1.Size = (empty : RedBlackTree Nat).Size ∧
        toList t1.m_root = toList (empty : RedBlackTree Nat).m_root) ∧
      ∃ t2, t1.Insert 7 = some (false, t2)) ∧
    ((empty : RedBlackTree Nat).Insert 7).map Prod.fst = some true ∧
    ((insertList (empty : RedBlackTree Nat) [7]).Insert 7).map Prod.fst = some false :=
  ⟨insert_flag empty 7 Reachable.empty (by decide), by decide, by decide⟩

/-- C9: `Delete(x)` of an item that is not stored returns false and leaves `Size()`, every
`Contains(y)` and the in-order content unchanged. -/
theorem delete_absent (t : RedBlackTree T) (x : T) (h : Reachable t)
    (hx : x ∉ toList t.m_root) :
    ∃ t1, t.Delete x = some (false, t1) ∧ t1.Size = t.Size ∧
      (∀ y, t1.Contains y = t.Contains y) ∧ toList t1.m_root = toList t.m_root := by
  obtain ⟨d, t1, h1, h2, h3, h4, h5⟩ := Delete_spec t x h.wf
  have hd : d = false := by
    cases d
    · rfl
    · exact absurd (h3.1 rfl) hx
  subst hd
  have hlist : toList t1.m_root = toList t.m_root := by
    rw [h2]
    exact filter_ne_of_forall_ne (fun y hy hyx => hx (hyx ▸ hy))
  refine ⟨t1, h1, by simpa [Size] using h4, ?_, hlist⟩
  intro y
  rw [Bool.eq_iff_iff]
  unfold Contains
  rw [Contains_iff y _ h5.sorted, Contains_iff y _ h.wf.sorted, hlist]

theorem toList_tree_99999 :
    toList (insertList (empty : RedBlackTree Nat) (List.range' 1 99999)).m_root =
      List.range' 1 99999 :=
  toList_insertList_empty _ _ (by rw [List.length_range']; norm_num) (by
    unfold List.Sorted
    exact List.pairwise_lt_range' 1 99999) (fun _ => Iff.rfl)

/-- C9 on the tree holding 1..99999: `Delete(100000)` changes nothing; neither does the whole run
`Delete(200000)`, ..., `Delete(100000)`; and the run `Delete(99999)`, ..., `Delete(1)` after it
leaves `Size() == 0`. -/
theorem delete_absent_witness :
    (∃ t1, (insertList (empty : RedBlackTree Nat) (List.range' 1 99999)).Delete 100000 =
        some (false, t1) ∧
      t1.Size = (insertList (empty : RedBlackTree Nat) (List.range' 1 99999)).Size ∧
      (∀ y, t1.Contains y =
        (insertList (empty : RedBlackTree Nat) (List.range' 1 99999)).Contains y) ∧
      toList t1.m_root =
        toList (insertList (empty : RedBlackTree Nat) (List.range' 1 99999)).m_root) ∧
    toList (deleteList (insertList (empty : RedBlackTree Nat) (List.range' 1 99999))
      (List.range' 100000 100001).reverse).m_root = List.range' 1 99999 ∧
    (deleteList (insertList (empty : RedBlackTree Nat) (List.range' 1 99999))
      (List.range' 100000 100001).reverse).Size = 99999 ∧
    (deleteList (deleteList (insertList (empty : RedBlackTree Nat) (List.range' 1 99999))
      (List.range' 100000 100001).reverse) (List.range' 1 99999).reverse).Size = 0 := by
  have hr : Reachable (insertList (empty : RedBlackTree Nat) (List.range' 1 99999)) :=
    Reachable.insertList _ Reachable.empty (by
      rw [List.length_range']; simp only [empty, count_null]; norm_num)
  have hr1 := Reachable.deleteList (List.range' 100000 100001).reverse hr
  have hr2 := Reachable.deleteList (List.range' 1 99999).reverse hr1
  have e1 : toList (deleteList (insertList (empty : RedBlackTree Nat) (List.range' 1 99999))
      (List.range' 100000 100001).reverse).m_root = List.range' 1 99999 := by
    rw [toList_deleteList _ hr, toList_tree_99999, List.filter_eq_self]
    intro y hy
    rw [List.mem_range'_1] at hy
    simp only [List.mem_reverse, List.mem_range'_1, decide_eq_true_eq, not_and, not_lt]
    omega
  have e2 : toList (deleteList (deleteList (insertList (empty : RedBlackTree Nat)
      (List.range' 1 99999)) (List.range' 100000 100001).reverse)
      (List.range' 1 99999).reverse).m_root = [] := by
    rw [toList_deleteList _ hr1, e1, List.filter_eq_nil_iff]
    intro y hy
    simp only [List.mem_reverse, decide_eq_true_eq, not_not]
    exact hy
  refine ⟨delete_absent _ 100000 hr ?_, e1, ?_, ?_⟩
  · rw [toList_tree_99999, List.mem_range'_1]; omega
  · rw [hr1.size_eq_length, e1]; simp
  · rw [hr2.size_eq_length, e2]; rfl

/-- C10: after `Insert(1)` and `Insert(2)` the item 3 is not stored, and `Find(3)` returns the
placeholder value together with rank 0, the rank of the stored item 1, not the sentinel
`(size_t)-1`. -/
theorem find_absent_rank_wraps :
    (insertList (empty : RedBlackTree Nat) [1, 2]).Contains 3 = false ∧
    (insertList (empty : RedBlackTree Nat) [1, 2]).Find 3 = (0, default) ∧
    ((insertList (empty : RedBlackTree Nat) [1, 2]).Find 3).1 ≠ 2 ^ 64 - 1 ∧
    (insertList (empty : RedBlackTree Nat) [1, 2]).Find 1 = (0, 1) := by
  decide

end RedBlackTree

namespace RedBlackTree
namespace Node

variable {T : Type}

/-! ### Queries on size-augmented search trees -/

/-- `Node::At` walks off the subtree for every index from its node count on. -/
theorem At_of_le [Inhabited T] (t : Node T) (hz : Sized t) :
    ∀ k, count t ≤ k → k < 2 ^ 64 → At t k = default := by
  induction t with
  | null => intro k _ _; rfl
  | node i b s l r ihl ihr =>
    intro k hk h64
    rw [Sized_node] at hz
    obtain ⟨hs, hzl, hzr⟩ := hz
    rw [count_node] at hk
    unfold At
    rw [if_neg (by omega), if_neg (by omega), addSz_of_lt (by omega),
      subSz_of_le (by omega) h64]
    exact ihr hzr _ (by omega) (by omega)

section Rank
variable [LinearOrder T]

theorem pathRank_null (x : T) : pathRank (null : Node T) x = 0 := rfl

/-- Unfolding of `pathRank` along the descent. -/
theorem pathRank_node (i : T) (b s l r) (x : T) :
    pathRank (node i b s l r) x =
      if x = i then s else if x < i then pathRank l x else s + pathRank r x := by
  unfold pathRank
  by_cases h1 : x = i
  · simp [searchPath, continuesRight, holds, getLeftSize, h1]
  · by_cases h2 : x < i
    · simp [searchPath, continuesRight, holds, getLeftSize, h1, h2]
    · simp [searchPath, continuesRight, holds, getLeftSize, h1, h2]
      omega

/-- On a size-augmented search tree `Node::Find` returns, for a stored item, the item itself and
the rank `pathRank`, which is below the node count. -/
theorem Find_of_mem [Inhabited T] (x : T) (t : Node T) (hs : (toList t).Sorted (· < ·))
    (hz : Sized t) (hc : count t < 2 ^ 64) (hx : x ∈ toList t) :
    (Find t x).2 = x ∧ (Find t x).1 = pathRank t x ∧ pathRank t x < count t := by
  induction t with
  | null => simp at hx
  | node i b s l r ihl ihr =>
    obtain ⟨hsl, hsr, h3, h4⟩ := sorted_node (by simpa using hs)
    rw [Sized_node] at hz
    obtain ⟨hsz, hzl, hzr⟩ := hz
    rw [count_node] at hc ⊢
    rw [pathRank_node]
    unfold Find
    by_cases h1 : x = i
    · rw [if_pos h1, if_pos h1]
      exact ⟨h1.symm, rfl, by omega⟩
    · rw [if_neg h1, if_neg h1]
      simp only [toList_node, List.mem_append, List.mem_cons, h1, false_or] at hx
      by_cases h2 : x < i
      · rw [if_pos h2, if_pos h2]
        have hxl : x ∈ toList l := hx.elim id (fun h => absurd (h4 x h) (lt_asymm h2))
        obtain ⟨e1, e2, e3⟩ := ihl hsl hzl (by omega) hxl
        exact ⟨e1, e2, by omega⟩
      · rw [if_neg h2, if_neg h2]
        have hxr : x ∈ toList r := hx.elim (fun h => absurd (h3 x h) h2) id
        obtain ⟨e1, e2, e3⟩ := ihr hsr hzr (by omega) hxr
        refine ⟨e1, ?_, by omega⟩
        show addSz (Find r x).1 s = s + pathRank r x
        rw [e2, addSz_of_lt (by omega)]
        omega

end Rank

end Node
end RedBlackTree

namespace RedBlackTree

variable {T : Type} [LinearOrder T]

open Node

/-! ### Runs of `Insert` calls with repeated items -/

theorem length_le_dedup_length {L M : List T} (hL : L.Nodup) (hsub : ∀ y ∈ L, y ∈ M) :
    L.length ≤ M.dedup.length :=
  (List.subperm_of_subset hL (fun y hy => List.mem_dedup.2 (hsub y hy))).length_le

theorem dedup_length_congr {A B : List T} (h : ∀ y, y ∈ A ↔ y ∈ B) :
    A.dedup.length = B.dedup.length := by
  apply List.Perm.length_eq
  rw [List.perm_ext_iff_of_nodup (List.nodup_dedup A) (List.nodup_dedup B)]
  intro y
  rw [List.mem_dedup, List.mem_dedup]
  exact h y

/-- A run of `Insert` calls stays among the reachable states and collects the items, as long as
the number of distinct items stays below the capacity of `size_t`. -/
theorem insertList_spec {t : RedBlackTree T} (xs : List T) (h : Reachable t)
    (hcap : (toList t.m_root ++ xs).dedup.length + 1 < 2 ^ 64) :
    Reachable (insertList t xs) ∧
      ∀ y, y ∈ toList (insertList t xs).m_root ↔ y ∈ toList t.m_root ∨ y ∈ xs := by
  induction xs generalizing t with
  | nil => exact ⟨h, fun y => by simp [insertList]⟩
  | cons x xs ih =>
    obtain ⟨b, t1, h1, h2, _⟩ := Insert_spec t x h.wf
    have hcnt : count t.m_root ≤ (toList t.m_root ++ x :: xs).dedup.length := by
      rw [← length_toList]
      exact length_le_dedup_length h.wf.sorted.nodup (fun y hy => List.mem_append_left _ hy)
    have hr : Reachable t1 := Reachable.insert t x (b, t1) h (by omega) h1
    have hmem : ∀ y, y ∈ toList t1.m_root ++ xs ↔ y ∈ toList t.m_root ++ x :: xs := by
      intro y
      rw [List.mem_append, h2, mem_ins, List.mem_append, List.mem_cons, or_assoc]
    obtain ⟨k1, k2⟩ := ih hr (by rw [dedup_length_congr hmem]; exact hcap)
    unfold insertList
    rw [h1]
    refine ⟨k1, fun y => ?_⟩
    show y ∈ toList (insertList t1 xs).m_root ↔ _
    rw [k2, h2, mem_ins, List.mem_cons, or_assoc]

/-- The tree built from a list holds each distinct item of the list once. -/
theorem toList_insertList_perm (xs : List T) (hcap : xs.dedup.length + 1 < 2 ^ 64) :
    Reachable (insertList (empty : RedBlackTree T) xs) ∧
      (toList (insertList (empty : RedBlackTree T) xs).m_root).Perm xs.dedup := by
  obtain ⟨h1, h2⟩ := insertList_spec xs (Reachable.empty : Reachable (empty : RedBlackTree T))
    (by simpa [empty] using hcap)
  refine ⟨h1, ?_⟩
  rw [List.perm_ext_iff_of_nodup h1.wf.sorted.nodup (List.nodup_dedup xs)]
  intro y
  rw [h2, List.mem_dedup]
  simp [empty]

end RedBlackTree

namespace RedBlackTree

variable {T : Type} [LinearOrder T]

open Node

section
variable [Inhabited T]

/-- C11: on a reachable tree `Contains(x)` is true exactly when `x` occurs in the in-order
traversal; in particular `Contains(At(i))` is true for every index below `Size()`. -/
theorem contains_iff_stored (t : RedBlackTree T) (x : T) (h : Reachable t) :
    (t.Contains x = true ↔ x ∈ toList t.m_root) ∧
      ∀ i, i < t.Size → t.Contains (t.At i) = true := by
  have hw := h.wf
  refine ⟨Contains_iff x t.m_root hw.sorted, fun i hi => ?_⟩
  have hat := At_eq t.m_root hw.sized hw.bound i (by rw [← hw.size_eq]; exact hi)
  exact (Contains_iff _ t.m_root hw.sorted).2 (List.getElem?_mem hat)

/-- C11 on the tree built by inserting 5, 3, 8, 1, 4: `Contains(4)` is true, `Contains(7)` is
false, and `Contains(At(i))` is true for the five indices. -/
theorem contains_iff_stored_witness :
    (((insertList (empty : RedBlackTree Nat) [5, 3, 8, 1, 4]).Contains 4 = true ↔
        4 ∈ toList (insertList (empty : RedBlackTree Nat) [5, 3, 8, 1, 4]).m_root) ∧
      ∀ i, i < (insertList (empty : RedBlackTree Nat) [5, 3, 8, 1, 4]).Size →
        (insertList (empty : RedBlackTree Nat) [5, 3, 8, 1, 4]).Contains
          ((insertList (empty : RedBlackTree Nat) [5, 3, 8, 1, 4]).At i) = true) ∧
    (insertList (empty : RedBlackTree Nat) [5, 3, 8, 1, 4]).Contains 4 = true ∧
    (insertList (empty : RedBlackTree Nat) [5, 3, 8, 1, 4]).Contains 7 = false ∧
    (List.range 5).map (fun i => (insertList (empty : RedBlackTree Nat) [5, 3, 8, 1, 4]).Contains
      ((insertList (empty : RedBlackTree Nat) [5, 3, 8, 1, 4]).At i)) =
      [true, true, true, true, true] :=
  ⟨contains_iff_stored _ 4 (Reachable.insertList _ Reachable.empty (by decide)),
    by decide, by decide, by decide⟩

/-- C12: for an item stored in a reachable tree `Find(x)` returns a rank different from the
not-found sentinel `(size_t)-1` and a value equal to `x`. -/
theorem find_stored (t : RedBlackTree T) (x : T) (h : Reachable t)
    (hx : x ∈ toList t.m_root) :
    (t.Find x).1 ≠ 2 ^ 64 - 1 ∧ (t.Find x).2 = x := by
  have hw := h.wf
  obtain ⟨e1, e2, e3⟩ := Find_of_mem x t.m_root hw.sorted hw.sized hw.bound hx
  have hb := hw.bound
  refine ⟨?_, e1⟩
  unfold Find
  rw [e2]
  omega

/-- C12 on the tree built by inserting 5, 3, 8, 1, 4: the item 8, and every inserted item. -/
theorem find_stored_witness :
    (((insertList (empty : RedBlackTree Nat) [5, 3, 8, 1, 4]).Find 8).1 ≠ 2 ^ 64 - 1 ∧
      ((insertList (empty : RedBlackTree Nat) [5, 3, 8, 1, 4]).Find 8).2 = 8) ∧
    ∀ x ∈ [5, 3, 8, 1, 4],
      ((insertList (empty : RedBlackTree Nat) [5, 3, 8, 1, 4]).Find x).1 ≠ 2 ^ 64 - 1 ∧
      ((insertList (empty : RedBlackTree Nat) [5, 3, 8, 1, 4]).Find x).2 = x :=
  ⟨find_stored _ 8 (Reachable.insertList _ Reachable.empty (by decide)) (by decide),
    by decide⟩

end

/-- C13: after inserting a list of items one by one into the empty tree, `Size()` is the number
of distinct values of the list and the number of nodes of the tree. -/
theorem size_insertList_distinct (xs : List T) (hcap : xs.dedup.length + 1 < 2 ^ 64) :
    (insertList (empty : RedBlackTree T) xs).Size = xs.dedup.length ∧
      (insertList (empty : RedBlackTree T) xs).Size =
        count (insertList (empty : RedBlackTree T) xs).m_root := by
  obtain ⟨h1, h2⟩ := toList_insertList_perm xs hcap
  refine ⟨?_, h1.wf.size_eq⟩
  rw [h1.size_eq_length, h2.length_eq]

/-- C13 on the list 3, 1, 3, 2, 1 with three distinct values. -/
theorem size_insertList_distinct_witness :
    ((insertList (empty : RedBlackTree Nat) [3, 1, 3, 2, 1]).Size = [3, 1, 3, 2, 1].dedup.length ∧
      (insertList (empty : RedBlackTree Nat) [3, 1, 3, 2, 1]).Size =
        count (insertList (empty : RedBlackTree Nat) [3, 1, 3, 2, 1]).m_root) ∧
    (insertList (empty : RedBlackTree Nat) [3, 1, 3, 2, 1]).Size = 3 :=
  ⟨size_insertList_distinct [3, 1, 3, 2, 1] (by decide), by decide⟩

/-- C14: inserting a list of items (distinct or not) into the empty tree and deleting all of
them, in any order, ends in the empty tree (`Size() == 0`, no root); and in every reachable state
the root is absent exactly when `Size() == 0`, so that `Insert` never enters `Node::Insert` with
an absent root. -/
theorem delete_all_empty (xs ys : List T) (t : RedBlackTree T)
    (hcap : xs.length < 2 ^ 64) (hp : ys.Perm xs) (h : Reachable t) :
    (deleteList (insertList (empty : RedBlackTree T) xs) ys).Size = 0 ∧
      (deleteList (insertList (empty : RedBlackTree T) xs) ys).m_root = null ∧
      deleteList (insertList (empty : RedBlackTree T) xs) ys = empty ∧
      (t.m_root = null ↔ t.Size = 0) ∧
      ∀ x, (t.Empty = false → t.m_root ≠ null) ∧ ∃ r, t.Insert x = some r := by
  have hr : Reachable (insertList (empty : RedBlackTree T) xs) :=
    Reachable.insertList xs Reachable.empty (by simpa [empty] using hcap)
  have hr2 := Reachable.deleteList ys hr
  have hnil : toList (deleteList (insertList (empty : RedBlackTree T) xs) ys).m_root = [] := by
    rw [toList_deleteList ys hr, List.filter_eq_nil_iff]
    intro y hy
    have hy2 : y ∈ xs := by
      have := (toList_insertList xs Reachable.empty (by simpa [empty] using hcap) y).1 hy
      simpa [empty] using this
    simpa using hp.mem_iff.2 hy2
  have hsz : (deleteList (insertList (empty : RedBlackTree T) xs) ys).Size = 0 := by
    rw [hr2.size_eq_length, hnil]; rfl
  have hroot : (deleteList (insertList (empty : RedBlackTree T) xs) ys).m_root = null := by
    apply count_eq_zero.1
    rw [← length_toList, hnil]; rfl
  have hiff : t.m_root = null ↔ t.Size = 0 := by
    unfold Size
    rw [h.wf.size_eq]
    exact count_eq_zero.symm
  refine ⟨hsz, hroot, ?_, hiff, fun x => ⟨?_, ?_⟩⟩
  · rcases hdl : deleteList (insertList (empty : RedBlackTree T) xs) ys with ⟨root, sz⟩
    rw [hdl] at hsz hroot
    simp only [Size] at hsz hroot
    rw [hsz, hroot]
    rfl
  · intro he hn
    have := hiff.1 hn
    simp [Empty, Size] at he this
    exact he this
  · obtain ⟨b, t1, h1, _⟩ := Insert_spec t x h.wf
    exact ⟨_, h1⟩

/-- C14 on the items 5, 3, 8, 1, 4, deleted in the order 1, 8, 4, 5, 3, and for the reachable
tree holding 2 and 1. -/
theorem delete_all_empty_witness :
    ((deleteList (insertList (empty : RedBlackTree Nat) [5, 3, 8, 1, 4]) [1, 8, 4, 5, 3]).Size
        = 0 ∧
      (deleteList (insertList (empty : RedBlackTree Nat) [5, 3, 8, 1, 4]) [1, 8, 4, 5, 3]).m_root
        = null ∧
      deleteList (insertList (empty : RedBlackTree Nat) [5, 3, 8, 1, 4]) [1, 8, 4, 5, 3] = empty ∧
      ((insertList (empty : RedBlackTree Nat) [2, 1]).m_root = null ↔
        (insertList (empty : RedBlackTree Nat) [2, 1]).Size = 0) ∧
      ∀ x, ((insertList (empty : RedBlackTree Nat) [2, 1]).Empty = false →
          (insertList (empty : RedBlackTree Nat) [2, 1]).m_root ≠ null) ∧
        ∃ r, (insertList (empty : RedBlackTree Nat) [2, 1]).Insert x = some r) :=
  delete_all_empty [5, 3, 8, 1, 4] [1, 8, 4, 5, 3] _ (by decide) (by decide)
    (Reachable.insertList _ Reachable.empty (by decide))

end RedBlackTree

namespace RedBlackTree

variable {T : Type} [LinearOrder T]

open Node

/-- C15: after `Insert(2)`, `Insert(4)`, `Insert(6)`, `Insert(8)` the item 1 is not stored, and
`Delete(1)` returns false but leaves a different node structure: the root was the node 4 with the
children 2 and 8, it is the node 6 with the children 4 and 8 afterwards. -/
theorem delete_absent_restructures :
    Reachable (insertList (empty : RedBlackTree Nat) [2, 4, 6, 8]) ∧
    1 ∉ toList (insertList (empty : RedBlackTree Nat) [2, 4, 6, 8]).m_root ∧
    (insertList (empty : RedBlackTree Nat) [2, 4, 6, 8]).m_root =
      node 4 true 1 (node 2 true 0 null null)
        (node 8 true 1 (node 6 false 0 null null) null) ∧
    ((insertList (empty : RedBlackTree Nat) [2, 4, 6, 8]).Delete 1).map
        (fun r => (r.1, r.2.m_root)) =
      some (false, node 6 true 2 (node 4 true 1 (node 2 false 0 null null) null)
        (node 8 true 0 null null)) ∧
    ∃ r, (insertList (empty : RedBlackTree Nat) [2, 4, 6, 8]).Delete 1 = some r ∧
      r.2 ≠ insertList (empty : RedBlackTree Nat) [2, 4, 6, 8] :=
  ⟨Reachable.insertList _ Reachable.empty (by decide), by decide, by decide, by decide,
    by decide⟩

/-- C15, amended: `Delete(x)` of an item that is not stored returns false and leaves the tree
logically unchanged: same in-order item sequence, same number of nodes, same `Size()`, and the
shape, balance and size-augmentation invariants still hold. -/
theorem delete_absent_keeps_content (t : RedBlackTree T) (x : T) (h : Reachable t)
    (hx : x ∉ toList t.m_root) :
    ∃ t1, t.Delete x = some (false, t1) ∧ toList t1.m_root = toList t.m_root ∧
      count t1.m_root = count t.m_root ∧ t1.Size = t.Size ∧
      LLRB t1.m_root ∧ Sized t1.m_root := by
  obtain ⟨d, t1, h1, h2, h3, h4, h5⟩ := Delete_spec t x h.wf
  have hd : d = false := by
    cases d
    · rfl
    · exact absurd (h3.1 rfl) hx
  subst hd
  have hlist : toList t1.m_root = toList t.m_root := by
    rw [h2]
    exact filter_ne_of_forall_ne (fun y hy hyx => hx (hyx ▸ hy))
  refine ⟨t1, h1, hlist, ?_, by simpa [Size] using h4, h5.llrb, h5.sized⟩
  rw [← length_toList, hlist, length_toList]

/-- C15, amended, on the tree built by inserting 2, 4, 6, 8 and the absent item 1. -/
theorem delete_absent_keeps_content_witness :
    ∃ t1, (insertList (empty : RedBlackTree Nat) [2, 4, 6, 8]).Delete 1 = some (false, t1) ∧
      toList t1.m_root = toList (insertList (empty : RedBlackTree Nat) [2, 4, 6, 8]).m_root ∧
      count t1.m_root = count (insertList (empty : RedBlackTree Nat) [2, 4, 6, 8]).m_root ∧
      t1.Size = (insertList (empty : RedBlackTree Nat) [2, 4, 6, 8]).Size ∧
      LLRB t1.m_root ∧ Sized t1.m_root :=
  delete_absent_keeps_content _ 1 (Reachable.insertList _ Reachable.empty (by decide))
    (by decide)

section
variable [Inhabited T]

/-- C16: on a reachable tree `At(i)` returns the placeholder `s_default` for every index
`i >= Size()` (an index is a `size_t` value, below `2 ^ 64`). -/
theorem at_out_of_range (t : RedBlackTree T) (i : Nat) (h : Reachable t) (hi : t.Size ≤ i)
    (h64 : i < 2 ^ 64) : t.At i = default := by
  have hw := h.wf
  exact At_of_le t.m_root hw.sized i (by rw [← hw.size_eq]; exact hi) h64

/-- C16 on the tree built by inserting 5, 3, 8, 1, 4: `At(5)`, `At(6)` and
`At((size_t)-1)` are the placeholder, which is 0 for the item type of natural numbers. -/
theorem at_out_of_range_witness :
    (insertList (empty : RedBlackTree Nat) [5, 3, 8, 1, 4]).At 5 = default ∧
    (default : Nat) = 0 ∧
    (insertList (empty : RedBlackTree Nat) [5, 3, 8, 1, 4]).At 6 = 0 ∧
    (insertList (empty : RedBlackTree Nat) [5, 3, 8, 1, 4]).At (2 ^ 64 - 1) = 0 :=
  ⟨at_out_of_range _ 5 (Reachable.insertList _ Reachable.empty (by decide)) (by decide)
    (by decide), rfl, by decide, by decide⟩

/-- C17: for an index below `Size()`, `DeleteAt(i)` returns true, decreases `Size()` by one and
leaves the previous in-order traversal without its element at position `i`. -/
theorem delete_at_index (t : RedBlackTree T) (i : Nat) (h : Reachable t) (hi : i < t.Size) :
    ∃ t1, t.DeleteAt i = some (true, t1) ∧ t1.Size + 1 = t.Size ∧
      toList t1.m_root = (toList t.m_root).eraseIdx i := by
  have hw := h.wf
  have hlen : i < (toList t.m_root).length := by
    rw [length_toList, ← hw.size_eq]; exact hi
  have hat := At_eq t.m_root hw.sized hw.bound i (by rw [← hw.size_eq]; exact hi)
  have hget : (toList t.m_root)[i] = t.At i := by
    rw [List.getElem?_eq_getElem hlen] at hat
    exact Option.some.inj hat
  obtain ⟨d, t1, h1, h2, h3, h4, _⟩ := Delete_spec t (t.At i) hw
  have hd : d = true := h3.2 (List.getElem?_mem hat)
  subst hd
  refine ⟨t1, h1, h4, ?_⟩
  rw [h2, filter_ne_eq_erase hw.sorted, ← hget]
  exact hw.sorted.nodup.erase_getElem i hlen

/-- C17 on the tree built by inserting 5, 3, 8, 1, 4: `DeleteAt(2)` removes the item 4. -/
theorem delete_at_index_witness :
    (∃ t1, (insertList (empty : RedBlackTree Nat) [5, 3, 8, 1, 4]).DeleteAt 2 = some (true, t1) ∧
      t1.Size + 1 = (insertList (empty : RedBlackTree Nat) [5, 3, 8, 1, 4]).Size ∧
      toList t1.m_root =
        (toList (insertList (empty : RedBlackTree Nat) [5, 3, 8, 1, 4]).m_root).eraseIdx 2) ∧
    ((insertList (empty : RedBlackTree Nat) [5, 3, 8, 1, 4]).DeleteAt 2).map
      (fun r => (r.1, r.2.Size, toList r.2.m_root)) = some (true, 4, [1, 3, 5, 8]) :=
  ⟨delete_at_index _ 2 (Reachable.insertList _ Reachable.empty (by decide)) (by decide),
    by decide⟩

end

theorem dedup_cap_of_nodup {xs : List T} (hn : xs.Nodup) (hl : xs.length + 1 < 2 ^ 64) :
    xs.dedup.length + 1 < 2 ^ 64 := by
  rw [hn.dedup]; exact hl

/-- C18: two lists that are permutations of each other, inserted one by one into empty trees,
give the same `Size()` and the same in-order traversal. -/
theorem insert_order_irrelevant (xs ys : List T) (hp : xs.Perm ys)
    (hcap : xs.dedup.length + 1 < 2 ^ 64) :
    (insertList (empty : RedBlackTree T) xs).Size =
        (insertList (empty : RedBlackTree T) ys).Size ∧
      toList (insertList (empty : RedBlackTree T) xs).m_root =
        toList (insertList (empty : RedBlackTree T) ys).m_root := by
  have hcap2 : ys.dedup.length + 1 < 2 ^ 64 := by
    rw [← hp.dedup.length_eq]; exact hcap
  obtain ⟨h1, h2⟩ := toList_insertList_perm xs hcap
  obtain ⟨k1, k2⟩ := toList_insertList_perm ys hcap2
  have hl : toList (insertList (empty : RedBlackTree T) xs).m_root =
      toList (insertList (empty : RedBlackTree T) ys).m_root :=
    List.eq_of_perm_of_sorted (h2.trans (hp.dedup.trans k2.symm)) h1.wf.sorted k1.wf.sorted
  exact ⟨by rw [h1.size_eq_length, k1.size_eq_length, hl], hl⟩

/-- C18 on 1..1000 inserted in ascending and in descending order: the same `Size()`, 1000, and
the same in-order traversal, 1..1000. -/
theorem insert_order_irrelevant_witness :
    ((insertList (empty : RedBlackTree Nat) (List.range' 1 1000)).Size =
        (insertList (empty : RedBlackTree Nat) (List.range' 1 1000).reverse).Size ∧
      toList (insertList (empty : RedBlackTree Nat) (List.range' 1 1000)).m_root =
        toList (insertList (empty : RedBlackTree Nat) (List.range' 1 1000).reverse).m_root) ∧
    (insertList (empty : RedBlackTree Nat) (List.range' 1 1000)).Size = 1000 ∧
    toList (insertList (empty : RedBlackTree Nat) (List.range' 1 1000)).m_root =
      List.range' 1 1000 :=
  ⟨insert_order_irrelevant (List.range' 1 1000) (List.range' 1 1000).reverse
      (List.reverse_perm (List.range' 1 1000)).symm
      (dedup_cap_of_nodup (List.nodup_range' 1 1000) (by rw [List.length_range']; norm_num)),
    size_range_tree, toList_range_tree⟩

end RedBlackTree

namespace RedBlackTree

variable {T : Type} [LinearOrder T]

open Node

/-- C19: for an item stored in a reachable tree, the rank returned by `Find(x)` is the sum of
the `LeftSize` values of the nodes of the search path at which the search continued into the
right child, plus the `LeftSize` of the node that holds `x`. -/
theorem find_rank_path_sum [Inhabited T] (t : RedBlackTree T) (x : T) (h : Reachable t)
    (hx : x ∈ toList t.m_root) : (t.Find x).1 = pathRank t.m_root x := by
  have hw := h.wf
  exact (Find_of_mem x t.m_root hw.sorted hw.sized hw.bound hx).2.1

/-- C19 on the tree built by inserting 5, 3, 8, 1, 4, 9, 2, 7, 6, 10 and the item 9: the search
turns right at two nodes, of `LeftSize` 4 and 2, and ends at a node of `LeftSize` 0; `Find(9)`
returns rank 6. -/
theorem find_rank_path_sum_witness :
    ((insertList (empty : RedBlackTree Nat) [5, 3, 8, 1, 4, 9, 2, 7, 6, 10]).Find 9).1 =
      pathRank (insertList (empty : RedBlackTree Nat) [5, 3, 8, 1, 4, 9, 2, 7, 6, 10]).m_root 9 ∧
    ((searchPath (insertList (empty : RedBlackTree Nat)
      [5, 3, 8, 1, 4, 9, 2, 7, 6, 10]).m_root 9).filter (continuesRight 9)).map getLeftSize =
      [4, 2] ∧
    ((searchPath (insertList (empty : RedBlackTree Nat)
      [5, 3, 8, 1, 4, 9, 2, 7, 6, 10]).m_root 9).filter (holds 9)).map getLeftSize = [0] ∧
    (insertList (empty : RedBlackTree Nat) [5, 3, 8, 1, 4, 9, 2, 7, 6, 10]).Find 9 = (6, 9) :=
  ⟨find_rank_path_sum _ 9 (Reachable.insertList _ Reachable.empty (by decide)) (by decide),
    by decide, by decide, by decide⟩

end RedBlackTree

namespace RedBlackTree

variable {T : Type}

open Node

/-- C20: `RotateLeft` on a node with a right child and `RotateRight` on a node with a left child
keep the in-order item sequence and the size augmentation. `RotateLeft` adds the old node's
`LeftSize` plus one to the `LeftSize` of the new top; `RotateRight` subtracts the new top's
`LeftSize` plus one from the `LeftSize` of the demoted node, and on a size-augmented subtree
that subtraction does not go below zero. -/
theorem rotations_keep_order_and_sizes (i : T) (b : Bool) (s : Nat) (o : Node T)
    (ci : T) (cb : Bool) (cs : Nat) (cl cr : Node T) :
    (toList (RotateLeft (node i b s o (node ci cb cs cl cr))) =
        toList (node i b s o (node ci cb cs cl cr)) ∧
      getLeftSize (RotateLeft (node i b s o (node ci cb cs cl cr))) = addSz cs (addSz s 1) ∧
      (Sized (node i b s o (node ci cb cs cl cr)) →
        count (node i b s o (node ci cb cs cl cr)) < 2 ^ 64 →
        Sized (RotateLeft (node i b s o (node ci cb cs cl cr))) ∧
        getLeftSize (RotateLeft (node i b s o (node ci cb cs cl cr))) = cs + (s + 1))) ∧
    (toList (RotateRight (node i b s (node ci cb cs cl cr) o)) =
        toList (node i b s (node ci cb cs cl cr) o) ∧
      getLeftSize (RotateRight (node i b s (node ci cb cs cl cr) o)) = cs ∧
      getLeftSize (getRight (RotateRight (node i b s (node ci cb cs cl cr) o))) =
        subSz s (addSz cs 1) ∧
      (Sized (node i b s (node ci cb cs cl cr) o) →
        count (node i b s (node ci cb cs cl cr) o) < 2 ^ 64 →
        Sized (RotateRight (node i b s (node ci cb cs cl cr) o)) ∧ cs + 1 ≤ s ∧
        getLeftSize (getRight (RotateRight (node i b s (node ci cb cs cl cr) o))) =
          s - (cs + 1))) := by
  refine ⟨⟨by simp [RotateLeft], rfl, fun hz hc => ⟨Sized_RotateLeft hz hc, ?_⟩⟩,
    ⟨by simp [RotateRight], rfl, rfl, fun hz hc => ⟨Sized_RotateRight hz hc, ?_⟩⟩⟩
  · simp only [Sized_node, count_node] at hz hc
    obtain ⟨h1, _, h3, _, _⟩ := hz
    show addSz cs (addSz s 1) = cs + (s + 1)
    rw [addSz_of_lt (a := s) (b := 1) (by omega), addSz_of_lt (by omega)]
  · simp only [Sized_node, count_node] at hz hc
    obtain ⟨h1, ⟨h2, _, _⟩, _⟩ := hz
    have hle : cs + 1 ≤ s := by omega
    refine ⟨hle, ?_⟩
    show subSz s (addSz cs 1) = s - (cs + 1)
    rw [addSz_of_lt (a := cs) (b := 1) (by omega), subSz_of_le hle (by omega)]

/-- C20 on the nodes 2 and 4 of a subtree holding 1, 2, 3, 4, 5. -/
theorem rotations_keep_order_and_sizes_witness :
    RotateLeft (node 2 true 1 (node 1 true 0 null null)
        (node 4 false 1 (node 3 true 0 null null) (node 5 true 0 null null))) =
      node 4 true 3 (node 2 false 1 (node 1 true 0 null null) (node 3 true 0 null null))
        (node 5 true 0 null null) ∧
    RotateRight (node 4 true 3 (node 2 false 1 (node 1 true 0 null null)
        (node 3 true 0 null null)) (node 5 true 0 null null)) =
      node 2 true 1 (node 1 true 0 null null)
        (node 4 false 1 (node 3 true 0 null null) (node 5 true 0 null null)) ∧
    Sized (RotateLeft (node 2 true 1 (node 1 true 0 null null)
        (node 4 false 1 (node 3 true 0 null null) (node 5 true 0 null null)))) ∧
    Sized (RotateRight (node 4 true 3 (node 2 false 1 (node 1 true 0 null null)
        (node 3 true 0 null null)) (node 5 true 0 null null))) ∧
    1 + 1 ≤ 3 :=
  ⟨by decide, by decide,
    ((rotations_keep_order_and_sizes 2 true 1 (node 1 true 0 null null) 4 false 1
      (node 3 true 0 null null) (node 5 true 0 null null)).1.2.2 (by decide) (by decide)).1,
    ((rotations_keep_order_and_sizes 4 true 3 (node 5 true 0 null null) 2 false 1
      (node 1 true 0 null null) (node 3 true 0 null null)).2.2.2.2 (by decide) (by decide)).1,
    ((rotations_keep_order_and_sizes 4 true 3 (node 5 true 0 null null) 2 false 1
      (node 1 true 0 null null) (node 3 true 0 null null)).2.2.2.2 (by decide) (by decide)).2.1⟩

end RedBlackTree

namespace RedBlackTree
namespace Node

variable {T : Type}

/-! ### `Node::DeleteMin` does not read the item of the node it removes

`DeleteAt(index)` passes to `Delete` the reference that `At` returns, which refers to the `Item`
of a node of the tree. `Node::Delete` assigns to an `Item` only in the successor swap at the node
that holds the item, and reads `item` once more after that, to store it in the node that
`Node::DeleteMin` then removes. The lemmas of this section show that the item of that node has no
influence on the result, so that passing the item by value gives the same state. -/

theorem isNull_setMinItem (x : T) (t : Node T) : (setMinItem t x).isNull = t.isNull := by
  rcases t with _ | ⟨i, b, s, l, r⟩
  · rfl
  · cases l <;> rfl

theorem IsBlack_setMinItem (x : T) (t : Node T) : (setMinItem t x).IsBlack = t.IsBlack := by
  rcases t with _ | ⟨i, b, s, l, r⟩
  · rfl
  · cases l <;> rfl

theorem IsLeftBlack_setMinItem (x : T) (t : Node T) :
    (setMinItem t x).IsLeftBlack = t.IsLeftBlack := by
  rcases t with _ | ⟨i, b, s, l, r⟩
  · rfl
  · rcases l with _ | ⟨li, lb, ls, ll, lr⟩
    · rfl
    · cases ll <;> rfl

theorem flipBlack_setMinItem (x : T) (t : Node T) :
    flipBlack (setMinItem t x) = setMinItem (flipBlack t) x := by
  rcases t with _ | ⟨i, b, s, l, r⟩
  · rfl
  · cases l <;> rfl

/-- The optional `MoveRedLeft` at the head of `Node::DeleteMin` commutes with the assignment to
the item of the leftmost node. -/
theorem descend_setMinItem (x i : T) (b : Bool) (s : Nat) (l r : Node T) (hl : l ≠ null) :
    ∃ i1 b1 s1 l1 r1, l1 ≠ null ∧
      (if (!l.isNull && l.IsBlack && l.IsLeftBlack) = true then
        MoveRedLeft (node i b s l r) else node i b s l r) = node i1 b1 s1 l1 r1 ∧
      (if (!(setMinItem l x).isNull && (setMinItem l x).IsBlack &&
          (setMinItem l x).IsLeftBlack) = true then
        MoveRedLeft (node i b s (setMinItem l x) r) else node i b s (setMinItem l x) r) =
        node i1 b1 s1 (setMinItem l1 x) r1 := by
  rw [isNull_setMinItem, IsBlack_setMinItem, IsLeftBlack_setMinItem]
  have hfl : flipBlack l ≠ null := by
    cases l
    · exact absurd rfl hl
    · simp [flipBlack]
  by_cases hc : (!l.isNull && l.IsBlack && l.IsLeftBlack) = true
  · rw [if_pos hc, if_pos hc]
    by_cases hr : r.IsLeftRed = true
    · rcases r with _ | ⟨ri, rb, rs, rl, rr⟩
      · simp at hr
      · rcases rl with _ | ⟨rli, rlb, rls, rll, rlr⟩
        · simp at hr
        · have hrlb : rlb = false := by simpa using hr
          subst hrlb
          rw [MoveRedLeft_rotate, MoveRedLeft_rotate, flipBlack_setMinItem]
          refine ⟨_, _, _, node i rb s (flipBlack l) rll, _, by simp, rfl, ?_⟩
          rcases hfl2 : flipBlack l with _ | ⟨fi, fb, fs, fl, fr⟩
          · exact absurd hfl2 hfl
          · rfl
    · have hr2 : r.IsLeftRed = false := by simpa using hr
      rw [MoveRedLeft_switch _ _ _ _ _ hr2, MoveRedLeft_switch _ _ _ _ _ hr2,
        flipBlack_setMinItem]
      exact ⟨_, _, _, flipBlack l, _, hfl, rfl, rfl⟩
  · rw [if_neg hc, if_neg hc]
    exact ⟨_, _, _, l, _, hl, rfl, rfl⟩

/-- The result of `Node::DeleteMin` does not depend on the item of the leftmost node, which is
the node it removes. -/
theorem DeleteMinFuel_setMinItem (x : T) (fuel : Nat) : ∀ (t : Node T), t ≠ null →
    DeleteMinFuel fuel (setMinItem t x) = DeleteMinFuel fuel t := by
  induction fuel with
  | zero => intro t _; simp [DeleteMinFuel]
  | succ fuel ih =>
    intro t ht
    rcases t with _ | ⟨i, b, s, l, r⟩
    · exact absurd rfl ht
    · rcases l with _ | ⟨li, lb, ls, ll, lr⟩
      · simp [setMinItem, DeleteMinFuel_succ]
      · obtain ⟨i1, b1, s1, l1, r1, hl1, e1, e2⟩ :=
          descend_setMinItem x i b s (node li lb ls ll lr) r (by simp)
        have hset : setMinItem (node i b s (node li lb ls ll lr) r) x =
            node i b s (setMinItem (node li lb ls ll lr) x) r := rfl
        rw [hset, DeleteMinFuel_succ, DeleteMinFuel_succ, e1, e2]
        have hl2 : setMinItem l1 x ≠ null := by
          intro h
          have := isNull_setMinItem x l1
          rw [h] at this
          cases l1
          · exact hl1 rfl
          · simp at this
        rcases hl1e : l1 with _ | ⟨a1, a2, a3, a4, a5⟩
        · exact absurd hl1e hl1
        · rcases hl2e : setMinItem (node a1 a2 a3 a4 a5) x with _ | ⟨c1, c2, c3, c4, c5⟩
          · rw [hl1e] at hl2; exact absurd hl2e hl2
          · simp only []
            rw [← hl2e, ih _ (by simp)]

/-- Whatever item the successor swap of `Node::Delete` stores in the leftmost node of the right
subtree, `Node::DeleteMin` returns the same. -/
theorem DeleteMinFuel_setMinItem_indep (x y : T) (fuel : Nat) (t : Node T) (ht : t ≠ null) :
    DeleteMinFuel fuel (setMinItem t x) = DeleteMinFuel fuel (setMinItem t y) := by
  rw [DeleteMinFuel_setMinItem x fuel t ht, DeleteMinFuel_setMinItem y fuel t ht]

end Node
end RedBlackTree

namespace RedBlackTree
namespace Node

variable {T : Type}

/-! ### `Fixup` -/

/-- `Fixup` is the three conditional steps of the specification, in that order. -/
theorem Fixup_eq_fixupSteps (i : T) (b : Bool) (s : Nat) (l r : Node T) :
    Fixup (node i b s l r) = fixupSteps (node i b s l r) := by
  have e1 : ∀ n : Node T, n.IsLeftRed = n.getLeft.IsRed := by
    intro n; rcases n with _ | ⟨_, _, _, l, _⟩
    · rfl
    · cases l <;> rfl
  have e2 : ∀ n : Node T, n.IsRightRed = n.getRight.IsRed := by
    intro n; rcases n with _ | ⟨_, _, _, _, r⟩
    · rfl
    · cases r <;> rfl
  have e3 : ∀ n : Node T, n.IsLeftBlack = n.getLeft.IsBlack := by
    intro n; rcases n with _ | ⟨_, _, _, l, _⟩
    · rfl
    · cases l <;> rfl
  simp only [Fixup, fixupSteps, MoveRedUp, e1, e2, e3, Bool.and_eq_true]

/-- The node that `Fixup` returns has no red right child. -/
theorem Fixup_right_black (i : T) (b : Bool) (s : Nat) (l r : Node T) :
    (Fixup (node i b s l r)).getRight.IsRed = false := by
  rcases l with _ | ⟨li, lb, ls, ll, lr⟩ <;> rcases r with _ | ⟨ri, rb, rs, rl, rr⟩
  · simp [Fixup, MoveRedUp, RotateLeft, RotateRight, SwitchColours, flipBlack]
  · cases rb <;> rcases rr with _ | ⟨rri, rrb, rrs, rrl, rrr⟩ <;> try cases rrb
    all_goals simp [Fixup, MoveRedUp, RotateLeft, RotateRight, SwitchColours, flipBlack]
  · cases lb <;> rcases ll with _ | ⟨lli, llb, lls, lll, llr⟩ <;> try cases llb
    all_goals simp [Fixup, MoveRedUp, RotateLeft, RotateRight, SwitchColours, flipBlack]
  · cases lb <;> cases rb <;> rcases ll with _ | ⟨lli, llb, lls, lll, llr⟩ <;> try cases llb
    all_goals
      rcases rr with _ | ⟨rri, rrb, rrs, rrl, rrr⟩ <;> try cases rrb
      all_goals simp [Fixup, MoveRedUp, RotateLeft, RotateRight, SwitchColours, flipBlack]

end Node
end RedBlackTree

namespace RedBlackTree
namespace Node

variable {T : Type}

/-! ### Height of balanced trees -/

@[simp] theorem height_null : height (null : Node T) = 0 := rfl
@[simp] theorem height_node (i : T) (b s l r) :
    height (node i b s l r) = max (height l) (height r) + 1 := rfl

/-- A well coloured, balanced subtree is at most twice as high as its black height, plus one
when its root is red. -/
theorem height_le_of_invc (t : Node T) (hc : invc t) (hh : invh t) :
    height t ≤ 2 * bheight t + boolSz t.IsRed := by
  induction t with
  | null => simp
  | node i b s l r ihl ihr =>
    rw [invc_node] at hc
    rw [invh_node] at hh
    obtain ⟨hr, hl, hcl, hcr⟩ := hc
    obtain ⟨hb, hhl, hhr⟩ := hh
    have h1 := ihl hcl hhl
    have h2 := ihr hcr hhr
    rw [hr, boolSz_false] at h2
    rw [height_node, bheight_node, IsRed_node]
    cases b
    · rw [hl rfl, boolSz_false] at h1
      simp only [boolSz_false, Bool.not_false, boolSz_true]
      omega
    · have := boolSz_le l.IsRed
      simp only [boolSz_true, Bool.not_true, boolSz_false]
      omega

/-- A balanced subtree of black height `k` has at least `2 ^ k - 1` nodes. -/
theorem pow_bheight_le (t : Node T) (hh : invh t) : 2 ^ bheight t ≤ count t + 1 := by
  induction t with
  | null => simp
  | node i b s l r ihl ihr =>
    rw [invh_node] at hh
    obtain ⟨hb, hhl, hhr⟩ := hh
    have h1 := ihl hhl
    have h2 := ihr hhr
    rw [← hb] at h2
    rw [bheight_node, count_node]
    have hle : 2 ^ (bheight l + boolSz b) ≤ 2 ^ (bheight l + 1) :=
      Nat.pow_le_pow_right (by norm_num) (by have := boolSz_le b; omega)
    rw [pow_succ] at hle
    omega

/-- A tree that is well coloured below its root and balanced is at most twice as high as its
black height, plus two. -/
theorem height_le_of_invc2 (t : Node T) (hc : invc2 t) (hh : invh t) :
    height t ≤ 2 * bheight t + 2 := by
  rcases t with _ | ⟨i, b, s, l, r⟩
  · simp
  · rw [invc2_node] at hc
    rw [invh_node] at hh
    obtain ⟨hr, hcl, hcr⟩ := hc
    obtain ⟨hb, hhl, hhr⟩ := hh
    have h1 := height_le_of_invc l hcl hhl
    have h2 := height_le_of_invc r hcr hhr
    rw [hr, boolSz_false] at h2
    have := boolSz_le l.IsRed
    rw [height_node, bheight_node]
    omega

/-- Height bound of a left-leaning red-black tree in its node count. -/
theorem height_bound (t : Node T) (h : LLRB t) :
    2 ^ ((height t - 2) / 2) ≤ count t + 1 ∧ height t ≤ 2 * Nat.log 2 (count t + 1) + 2 := by
  obtain ⟨hc, hh⟩ := (LLRB_iff t).1 h
  have h1 := height_le_of_invc2 t hc hh
  have h2 := pow_bheight_le t hh
  have h3 : bheight t ≤ Nat.log 2 (count t + 1) := Nat.le_log_of_pow_le (by norm_num) h2
  refine ⟨le_trans (Nat.pow_le_pow_right (by norm_num) (by omega)) h2, by omega⟩

end Node
end RedBlackTree

namespace RedBlackTree

variable {T : Type}

open Node

/-- C21: `Fixup` applies, in this order, `RotateLeft` when the right child is red and the left
child is black, `RotateRight` when the left child and the left-left grandchild are both red, and
`SwitchColours` when both children are red; the node it returns has no red right child (for
every node, also one whose right child has a red right child of its own); and it keeps the
in-order item sequence of the subtree. -/
theorem fixup_steps_right_child_order (i : T) (b : Bool) (s : Nat) (l r : Node T) :
    Fixup (node i b s l r) = fixupSteps (node i b s l r) ∧
      (Fixup (node i b s l r)).getRight.IsRed = false ∧
      (Fixup (node i b s l r)).IsRightRed = false ∧
      toList (Fixup (node i b s l r)) = toList (node i b s l r) := by
  have h := Fixup_right_black i b s l r
  refine ⟨Fixup_eq_fixupSteps i b s l r, h, ?_, toList_Fixup _⟩
  rcases hf : Fixup (node i b s l r) with _ | ⟨fi, fb, fs, fl, fr⟩
  · rfl
  · rw [hf] at h
    simpa using h

end RedBlackTree

namespace RedBlackTree

variable {T : Type} [LinearOrder T]

open Node

/-- C22: on a reachable tree and for an index `i >= Size()` (a `size_t` value), `DeleteAt(i)` is
`Delete` of the placeholder `s_default`: when the tree stores that value, `DeleteAt(i)` removes
it, returns true and decreases `Size()` by one; otherwise it returns false and leaves `Size()`
and the in-order content unchanged. -/
theorem delete_at_out_of_range [Inhabited T] (t : RedBlackTree T) (i : Nat) (h : Reachable t)
    (hi : t.Size ≤ i) (h64 : i < 2 ^ 64) :
    t.DeleteAt i = t.Delete default ∧
      (default ∈ toList t.m_root →
        ∃ t1, t.DeleteAt i = some (true, t1) ∧ t1.Size + 1 = t.Size ∧
          default ∉ toList t1.m_root ∧
          toList t1.m_root = (toList t.m_root).erase default) ∧
      (default ∉ toList t.m_root →
        ∃ t1, t.DeleteAt i = some (false, t1) ∧ t1.Size = t.Size ∧
          toList t1.m_root = toList t.m_root) := by
  have hw := h.wf
  have hat : t.At i = default :=
    At_of_le t.m_root hw.sized i (by rw [← hw.size_eq]; exact hi) h64
  have hda : t.DeleteAt i = t.Delete default := by
    unfold DeleteAt
    rw [hat]
  obtain ⟨d, t1, h1, h2, h3, h4, _⟩ := Delete_spec t default hw
  refine ⟨hda, fun hx => ?_, fun hx => ?_⟩
  · have hd : d = true := h3.2 hx
    subst hd
    refine ⟨t1, by rw [hda, h1], h4, ?_, ?_⟩
    · rw [h2]; simp
    · rw [h2]; exact filter_ne_eq_erase hw.sorted
  · have hd : d = false := by
      cases d
      · rfl
      · exact absurd (h3.1 rfl) hx
    subst hd
    refine ⟨t1, by rw [hda, h1], by simpa [Size] using h4, ?_⟩
    rw [h2]
    exact filter_ne_of_forall_ne (fun y hy hyx => hx (hyx ▸ hy))

/-- C22 on the tree built by inserting 5, 3, 8, 1, 4 with index 7: the placeholder 0 is not
stored and `DeleteAt(7)` returns false; and on the tree built by inserting 0, 1, 2 with index 5:
`DeleteAt(5)` removes the item 0. -/
theorem delete_at_out_of_range_witness :
    ((insertList (empty : RedBlackTree Nat) [5, 3, 8, 1, 4]).DeleteAt 7 =
        (insertList (empty : RedBlackTree Nat) [5, 3, 8, 1, 4]).Delete default) ∧
    ((insertList (empty : RedBlackTree Nat) [5, 3, 8, 1, 4]).DeleteAt 7).map
      (fun r => (r.1, r.2.Size, toList r.2.m_root)) = some (false, 5, [1, 3, 4, 5, 8]) ∧
    ((insertList (empty : RedBlackTree Nat) [0, 1, 2]).DeleteAt 5).map
      (fun r => (r.1, r.2.Size, toList r.2.m_root)) = some (true, 2, [1, 2]) :=
  ⟨(delete_at_out_of_range (insertList (empty : RedBlackTree Nat) [5, 3, 8, 1, 4]) 7
      (Reachable.insertList _ Reachable.empty (by decide)) (by decide) (by decide)).1,
    by decide, by decide⟩

/-- C23: a reachable tree with `n` nodes whose longest path from the root to an absent child
has `h` nodes satisfies `2 ^ ((h - 2) / 2) <= n + 1` (truncated subtraction, rounded-down
division), and `h <= 2 * log2 (n + 1) + 2` with the rounded-down logarithm; `n` is `Size()`. -/
theorem reachable_height_log (t : RedBlackTree T) (h : Reachable t) :
    2 ^ ((height t.m_root - 2) / 2) ≤ count t.m_root + 1 ∧
      height t.m_root ≤ 2 * Nat.log 2 (count t.m_root + 1) + 2 ∧
      t.Size = count t.m_root := by
  have hw := h.wf
  obtain ⟨h1, h2⟩ := height_bound t.m_root hw.llrb
  exact ⟨h1, h2, hw.size_eq⟩

/-- C23 on the tree built by inserting 1, 2, ..., 10, which has 10 nodes and height 4. -/
theorem reachable_height_log_witness :
    (2 ^ ((height (insertList (empty : RedBlackTree Nat) (List.range' 1 10)).m_root - 2) / 2) ≤
        count (insertList (empty : RedBlackTree Nat) (List.range' 1 10)).m_root + 1 ∧
      height (insertList (empty : RedBlackTree Nat) (List.range' 1 10)).m_root ≤
        2 * Nat.log 2 (count (insertList (empty : RedBlackTree Nat) (List.range' 1 10)).m_root
          + 1) + 2 ∧
      (insertList (empty : RedBlackTree Nat) (List.range' 1 10)).Size =
        count (insertList (empty : RedBlackTree Nat) (List.range' 1 10)).m_root) ∧
    count (insertList (empty : RedBlackTree Nat) (List.range' 1 10)).m_root = 10 ∧
    height (insertList (empty : RedBlackTree Nat) (List.range' 1 10)).m_root = 4 :=
  ⟨reachable_height_log _ (Reachable.insertList _ Reachable.empty (by decide)),
    by decide, by decide⟩

end RedBlackTree
